import Mathlib

/-!
Verification of the core of the `peter_grep` regular-expression engine.

The definitions below are a shallow embedding of the Rust sources:
`token.rs`, `cond.rs`, `transition.rs`, `capturer.rs`, `common.rs`,
`reader.rs`, `parser.rs`, `ast.rs` and `evaluator.rs`.  Machine integers
(`u64`, `usize`) are modelled as `Nat` (the program never relies on
wrap-around), Rust `HashMap`/`HashSet` are modelled as association lists /
plain lists (only `lookup` / `insert` / `any` / `contains` are used, none of
which depend on hashing), `Vec`-stacks are modelled as lists with the head
as the top of the stack, and fallible operations (`panic!`, `unwrap`,
out-of-bounds indexing, `assert!`) are made explicit with `Option`/`Except`.
Functions whose Rust originals can diverge or whose termination is not
structural (the parser's recursive descent, the evaluator's search loops)
take an explicit fuel argument; `none` means the fuel ran out.
-/

namespace PG

/-- `token.rs`: `Token` — `Start`, `End` or `Char(c)`.  (`End` is a Lean
keyword, so the constructors are named `start`/`stop`/`char`.) -/
inductive Token where
  | start : Token
  | stop : Token
  | char : Char → Token
deriving DecidableEq, Repr

/-- `common.rs`: `str_to_tokens` — wrap the subject characters in the
`Start`/`End` sentinels. -/
def str_to_tokens (s : String) : List Token :=
  Token.start :: (s.data.map Token.char) ++ [Token.stop]

/-- `common.rs`: `START_STATE`. -/
def START_STATE : Nat := 0

/-- `common.rs`: `END_STATE`. -/
def END_STATE : Nat := 1

/-- `cond.rs`: `Literal`. -/
inductive Literal where
  | char : Char → Literal
  | range : Char → Char → Literal
  | numeric : Literal
  | alphanumeric : Literal
deriving DecidableEq, Repr

/-- Rust `char::is_ascii_digit`. -/
def isAsciiDigit (c : Char) : Bool :=
  '0' ≤ c && c ≤ '9'

/-- Rust `char::is_ascii_alphanumeric`. -/
def isAsciiAlphanumeric (c : Char) : Bool :=
  ('0' ≤ c && c ≤ '9') || ('a' ≤ c && c ≤ 'z') || ('A' ≤ c && c ≤ 'Z')

/-- `cond.rs`: `Literal::is_match`.  `MatchResult` is modelled as
`Option Nat`: `some n` is `Match(n)`, `none` is `NoMatch`. -/
def Literal.is_match : Literal → Option Token → Option Nat
  | .alphanumeric, some (.char c) =>
      if isAsciiAlphanumeric c || c = '_' then some 1 else none
  | .alphanumeric, _ => none
  | .char c, some (.char tc) => if tc = c then some 1 else none
  | .char _, _ => none
  | .numeric, some (.char c) => if isAsciiDigit c then some 1 else none
  | .numeric, _ => none
  | .range a b, some (.char c) => if a ≤ c && c ≤ b then some 1 else none
  | .range _ _, _ => none

/-- `cond.rs`: `Cond`.  The Rust `HashSet<Literal>` of a char-group is
modelled as the list of its elements (only `iter().any` is applied to it). -/
inductive Cond where
  | char : Literal → Cond
  | anyChar : Cond
  | charGroup : List Literal → Bool → Cond
  | start : Cond
  | stop : Cond
  | none : Cond
  | captureRef : Nat → Cond
deriving DecidableEq, Repr

/-- Association-list model of `HashMap<u64, String>`: lookup. -/
def lookupA (k : Nat) : List (Nat × List Char) → Option (List Char)
  | [] => Option.none
  | (k', v) :: t => if k' = k then some v else lookupA k t

/-- Association-list model of `HashMap<u64, String>`: `insert` (replaces an
existing binding). -/
def insertA (k : Nat) (v : List Char) : List (Nat × List Char) → List (Nat × List Char)
  | [] => [(k, v)]
  | (k', v') :: t => if k' = k then (k, v) :: t else (k', v') :: insertA k v t

/-- Association-list model of `HashMap<u64, String>`: append one character to
the value stored at `k` (the `get_mut(..).push(c)` in `Capturer::push`;
the binding is present whenever it is used). -/
def appendA (k : Nat) (c : Char) : List (Nat × List Char) → List (Nat × List Char)
  | [] => []
  | (k', v') :: t => if k' = k then (k', v' ++ [c]) :: t else (k', v') :: appendA k c t

/-- `cond.rs`: `Cond::is_match` over the remaining token stream and the
current capture map.  Returns `some consumed` or `none` (`NoMatch`). -/
def Cond.is_match (cond : Cond) (tokens : List Token) (captures : List (Nat × List Char)) :
    Option Nat :=
  match cond with
  | .char t => t.is_match tokens.head?
  | .none => some 0
  | .charGroup chars isNegated =>
      match tokens.head? with
      | some (.char c) =>
          if (chars.any (fun g => (g.is_match (some (.char c))).isSome)).xor isNegated then
            some 1
          else Option.none
      | _ => Option.none
  | .start => match tokens.head? with
      | some .start => some 1
      | _ => Option.none
  | .stop => match tokens.head? with
      | some .stop => some 1
      | _ => Option.none
  | .anyChar => match tokens.head? with
      | some (.char _) => some 1
      | _ => Option.none
  | .captureRef id =>
      match lookupA id captures with
      | some capture =>
          if tokens.length < capture.length then Option.none
          else if (capture.zip tokens).all
              (fun p => match p.2 with
                | .char tc => tc = p.1
                | _ => false) then
            some capture.length
          else Option.none
      | Option.none => Option.none

/-- `transition.rs`: `CaptureGroupInstruction`. -/
inductive CaptureGroupInstruction where
  | start : Nat → CaptureGroupInstruction
  | stop : Nat → CaptureGroupInstruction
  | none : CaptureGroupInstruction
deriving DecidableEq, Repr

/-- `transition.rs`: `Transition`. -/
structure Transition where
  from_state : Nat
  to_state : Nat
  cond : Cond
  max_use : Option Nat
  capture_group_ins : CaptureGroupInstruction
deriving DecidableEq, Repr

/-- `transition.rs`: `Transition::new_full`. -/
def Transition.new_full (f t : Nat) (c : Cond) (m : Option Nat)
    (i : CaptureGroupInstruction) : Transition :=
  ⟨f, t, c, m, i⟩

/-- `transition.rs`: `Transition::new_cond`. -/
def Transition.new_cond (f t : Nat) (c : Cond) : Transition :=
  ⟨f, t, c, Option.none, .none⟩

/-- `transition.rs`: `Transition::new` (an unconditional epsilon edge). -/
def Transition.new (f t : Nat) : Transition :=
  ⟨f, t, .none, Option.none, .none⟩

/-- `capturer.rs`: `Capturer`.  `currents` is the stack of open group ids,
with the list head as the top of the stack. -/
structure Capturer where
  captures : List (Nat × List Char)
  currents : List Nat
deriving DecidableEq, Repr

/-- `capturer.rs`: `Capturer::new`. -/
def Capturer.new : Capturer := ⟨[], []⟩

/-- `capturer.rs`: `Capturer::start_capture`.  The Rust code asserts that
`id` is not already open; an assertion failure is modelled as `none`. -/
def Capturer.start_capture (cap : Capturer) (id : Nat) : Option Capturer :=
  if cap.currents.contains id then Option.none
  else some ⟨insertA id [] cap.captures, id :: cap.currents⟩

/-- `capturer.rs`: `Capturer::end_capture`.  Popping an empty stack
(`unwrap` of `None`) or popping a different id (failed `assert!`) is
modelled as `none`. -/
def Capturer.end_capture (cap : Capturer) (id : Nat) : Option Capturer :=
  match cap.currents with
  | [] => Option.none
  | top :: rest => if id = top then some ⟨cap.captures, rest⟩ else Option.none

/-- `capturer.rs`: `Capturer::push` — append every consumed `Char` token to
the buffer of every currently open group. -/
def Capturer.push (cap : Capturer) (tokens : List Token) : Capturer :=
  tokens.foldl
    (fun acc tok =>
      match tok with
      | .char c => ⟨acc.currents.foldl (fun m id => appendA id c m) acc.captures, acc.currents⟩
      | _ => acc)
    cap

end PG

namespace PG

/-- The lexicographic order on `(usize, usize)` pairs used by Rust's
`Vec::sort` (derived `Ord` on tuples). -/
def rangeLe (a b : Nat × Nat) : Prop :=
  a.1 < b.1 ∨ (a.1 = b.1 ∧ a.2 ≤ b.2)

instance : DecidableRel rangeLe := fun a b => by
  unfold rangeLe; infer_instance

instance : IsTotal (Nat × Nat) rangeLe where
  total a b := by
    rcases Nat.lt_trichotomy a.1 b.1 with h | h | h
    · exact Or.inl (Or.inl h)
    · rcases Nat.le_total a.2 b.2 with h2 | h2
      · exact Or.inl (Or.inr ⟨h, h2⟩)
      · exact Or.inr (Or.inr ⟨h.symm, h2⟩)
    · exact Or.inr (Or.inl h)

instance : IsTrans (Nat × Nat) rangeLe where
  trans a b c hab hbc := by
    rcases hab with h | ⟨e, h2⟩
    · rcases hbc with h' | ⟨e', _⟩
      · exact Or.inl (h.trans h')
      · exact Or.inl (e' ▸ h)
    · rcases hbc with h' | ⟨e', h2'⟩
      · exact Or.inl (e ▸ h')
      · exact Or.inr ⟨e.trans e', h2.trans h2'⟩

instance : IsAntisymm (Nat × Nat) rangeLe where
  antisymm a b hab hba := by
    rcases hab with h | ⟨e, h2⟩
    · rcases hba with h' | ⟨e', _⟩
      · exact absurd (h.trans h') (Nat.lt_irrefl _)
      · exact absurd (e' ▸ h) (Nat.lt_irrefl _)
    · rcases hba with h' | ⟨e', h2'⟩
      · exact absurd (e ▸ h') (Nat.lt_irrefl _)
      · exact Prod.ext e (Nat.le_antisymm h2 h2')

/-- `ranges.sort()` in `common.rs`.  Rust's stable sort is modelled by
`List.insertionSort`; as `rangeLe` is a linear (total, antisymmetric) order,
every correct sort of a list produces the same result, so the choice of
algorithm is immaterial. -/
def sortRanges (ranges : List (Nat × Nat)) : List (Nat × Nat) :=
  ranges.insertionSort rangeLe

/-- One iteration of the `for (start, end)` loop in
`merge_overlapping_match_ranges`.  The accumulator is kept reversed so that
its head is `out.last()`. -/
def mergeStep (out : List (Nat × Nat)) (r : Nat × Nat) : List (Nat × Nat) :=
  match out with
  | [] => [r]
  | (ps, pe) :: rest =>
      if pe < r.1 then r :: (ps, pe) :: rest
      else (ps, r.2) :: rest

/-- `common.rs`: `merge_overlapping_match_ranges` — sort, then fold each
range into the accumulator: push it when `out.last().1 < start`, otherwise
overwrite `out.last_mut().1 = end`. -/
def merge_overlapping_match_ranges (ranges : List (Nat × Nat)) : List (Nat × Nat) :=
  ((sortRanges ranges).foldl mergeStep []).reverse

end PG

namespace PG

/-- `ast.rs`: `AstNode`.  (`repeat` / `end` are Lean keywords, so the
constructors are `rep` / `stop`; the `CharGroup` set is a list, see `Cond`.) -/
inductive AstNode where
  | root : AstNode → AstNode
  | char : Literal → AstNode
  | seq : List AstNode → AstNode
  | alt : List AstNode → Nat → AstNode
  | rep : Option Nat → Option Nat → AstNode → AstNode
  | start : AstNode
  | stop : AstNode
  | anyChar : AstNode
  | charGroup : Bool → List Literal → AstNode
  | captureRef : Nat → AstNode

/-- A parse failure: either a typed error (`Err(..)` in Rust, the
`common.rs` `Error` type) or a process abort (`panic!`, failed `unwrap`,
out-of-bounds slice indexing). -/
inductive PErr where
  | typed : String → PErr
  | panicked : String → PErr
deriving DecidableEq, Repr

/-- The parser monad: `Except PErr` for errors/panics, on top of `Option`
for fuel exhaustion (`none` = ran out of fuel, which the Rust code has no
counterpart for). -/
abbrev PM (α : Type) : Type := ExceptT PErr Option α

/-- Fuel exhaustion. -/
def outOfFuel {α : Type} : PM α := ExceptT.mk Option.none

/-- `reader.rs`: `Reader::assert_pop` — unconditionally index the first
element (out-of-bounds panic on an empty stream), then compare. -/
def assert_pop (expected : Char) (s : List Char) : PM (Char × List Char) :=
  match s with
  | [] => throw (.panicked "index out of bounds")
  | c :: rest =>
      if c = expected then pure (c, rest)
      else throw (.typed "unexpected token")

/-- `reader.rs`: `Reader::parse_while`.  The Rust loop body ends in an
unconditional `break`, so only the first element is ever inspected and at
most one element is taken. -/
def parse_while (pred : Char → Bool) (s : List Char) : List Char × List Char :=
  match s with
  | [] => ([], [])
  | c :: rest => if pred c then ([c], rest) else ([], c :: rest)

/-- Decimal value of a digit run (`u64::from_str_radix(s, 10)` on a
non-empty all-digit string). -/
def digitsToNat (ds : List Char) : Nat :=
  ds.foldl (fun acc c => acc * 10 + (c.toNat - '0'.toNat)) 0

/-- `parser.rs`: `Parser::parse_number` — take digits with `parse_while`,
then `u64::from_str_radix`, which fails (typed error) on an empty string. -/
def parse_number (s : List Char) : PM (Nat × List Char) :=
  let (raw, rest) := parse_while isAsciiDigit s
  match raw with
  | [] => throw (.typed "cannot parse integer from empty string")
  | _ => pure (digitsToNat raw, rest)

/-- `parser.rs`: `Parser::check_modifier` — attach `*`, `?`, `+` or a brace
quantifier to the unit just parsed. -/
def check_modifier (node : AstNode) (s : List Char) : PM (AstNode × List Char) :=
  match s with
  | '*' :: rest => pure (.rep Option.none Option.none node, rest)
  | '?' :: rest => pure (.rep Option.none (some 1) node, rest)
  | '+' :: rest => pure (.rep (some 1) Option.none node, rest)
  | '{' :: rest => do
      let (minv, s) ← parse_number rest
      let (maxv, s) ←
        match s with
        | ',' :: s2 =>
            match s2 with
            | '}' :: _ => pure ((Option.none : Option Nat), s2)
            | _ => do
                let (m, s3) ← parse_number s2
                pure (some m, s3)
        | _ => pure ((some minv : Option Nat), s)
      let (_, s) ← assert_pop '}' s
      pure (AstNode.rep (some minv) maxv node, s)
  | _ => pure (node, s)

/-- The character-class loop inside `Parser::parse_unit`'s `'['` arm.
Each iteration pops one class char; on a following `'-'` it pops the range
end with a bare `Reader::pop`, which panics at end of input. -/
def parse_class_items (fuel : Nat) (s : List Char) : PM (List Literal × List Char) :=
  match fuel with
  | 0 => outOfFuel
  | fuel + 1 =>
    match s with
    | [] => throw (.typed "expected closing brace, got empty")
    | ']' :: _ => pure ([], s)
    | c :: rest =>
        match rest with
        | '-' :: rest2 =>
            match rest2 with
            | [] => throw (.panicked "index out of bounds")
            | u :: rest3 => do
                let (items, s') ← parse_class_items fuel rest3
                pure (Literal.range c u :: items, s')
        | _ => do
            let (items, s') ← parse_class_items fuel rest
            pure (Literal.char c :: items, s')

/-- The `loop`-until predicate of the parenthesised-group arm: stop at `)`,
`|` or end of input. -/
def parenUntil (s : List Char) : Bool :=
  match s.head? with
  | some ')' => true
  | some '|' => true
  | Option.none => true
  | _ => false

mutual

/-- `parser.rs`: `Parser::parse_sequence` — collect units until the
`until_pred` fires; the caller wraps the items in `AstNode::Seq`. -/
def parse_sequence (fuel : Nat) (pred : List Char → Bool) (idp : Nat) (s : List Char) :
    PM (List AstNode × List Char × Nat) :=
  match fuel with
  | 0 => outOfFuel
  | fuel + 1 =>
    if pred s then pure ([], s, idp)
    else do
      let (node, s, idp) ← parse_unit fuel idp s
      let (nodes, s, idp) ← parse_sequence fuel pred idp s
      pure (node :: nodes, s, idp)

/-- The alternation loop inside `Parser::parse_unit`'s `'('` arm: parse one
option, then branch on `)` (stop), `|` (continue) or anything else
(typed error "Invalid ending of paren group"). -/
def parse_alt_options (fuel : Nat) (idp : Nat) (s : List Char) :
    PM (List AstNode × List Char × Nat) :=
  match fuel with
  | 0 => outOfFuel
  | fuel + 1 => do
    let (items, s, idp) ← parse_sequence fuel parenUntil idp s
    let alt := AstNode.seq items
    match s with
    | ')' :: _ => pure ([alt], s, idp)
    | '|' :: _ => do
        let (_, s) ← assert_pop '|' s
        let (rest, s, idp) ← parse_alt_options fuel idp s
        pure (alt :: rest, s, idp)
    | _ => throw (.typed "invalid ending of paren group")

/-- `parser.rs`: `Parser::parse_unit` — one atom plus optional modifier. -/
def parse_unit (fuel : Nat) (idp : Nat) (s : List Char) :
    PM (AstNode × List Char × Nat) :=
  match fuel with
  | 0 => outOfFuel
  | fuel + 1 =>
    match s with
    | [] => throw (.typed "no more input to read")
    | '(' :: _ => do
        let capture_id := idp
        let idp := idp + 1
        let (_, s) ← assert_pop '(' s
        let (options, s, idp) ← parse_alt_options fuel idp s
        let (_, s) ← assert_pop ')' s
        let (node, s) ← check_modifier (AstNode.alt options capture_id) s
        pure (node, s, idp)
    | '[' :: rest => do
        let (isNegated, s) ←
          match rest with
          | '^' :: rest2 => pure (true, rest2)
          | _ => pure (false, rest)
        let (chars, s) ← parse_class_items (s.length + 1) s
        let (_, s) ← assert_pop ']' s
        let (node, s) ← check_modifier (AstNode.charGroup isNegated chars) s
        pure (node, s, idp)
    | '^' :: rest => do
        let (node, s) ← check_modifier AstNode.start rest
        pure (node, s, idp)
    | '$' :: rest => do
        let (node, s) ← check_modifier AstNode.stop rest
        pure (node, s, idp)
    | '.' :: rest => do
        let (node, s) ← check_modifier AstNode.anyChar rest
        pure (node, s, idp)
    | '\\' :: rest =>
        match rest with
        | [] => throw (.panicked "missing char after backslash")
        | c :: rest2 =>
            if c = 'd' then do
              let (node, s) ← check_modifier (AstNode.char .numeric) rest2
              pure (node, s, idp)
            else if c = 'w' then do
              let (node, s) ← check_modifier (AstNode.char .alphanumeric) rest2
              pure (node, s, idp)
            else if '1' ≤ c && c < '9' then
              -- the Rust arm is the half-open range pattern `'1'..'9'`
              let (raw, s') := parse_while isAsciiDigit (c :: rest2)
              match raw with
              | [] => throw (.panicked "unwrap of from_str_radix")
              | _ => do
                  let (node, s) ← check_modifier (AstNode.captureRef (digitsToNat raw)) s'
                  pure (node, s, idp)
            else do
              let (node, s) ← check_modifier (AstNode.char (Literal.char c)) rest2
              pure (node, s, idp)
    | other :: rest => do
        let (node, s) ← check_modifier (AstNode.char (Literal.char other)) rest
        pure (node, s, idp)

end

/-- `parser.rs`: `Parser::parse` — the whole input as a sequence, wrapped in
`Root`; the capture-group id counter starts at 1. -/
def parse (fuel : Nat) (s : List Char) : PM AstNode := do
  let (items, _, _) ← parse_sequence fuel (fun r => r.head?.isNone) 1 s
  pure (AstNode.root (AstNode.seq items))

/-- `parser.rs`: `Parser::parse_regex_str`. -/
def parse_regex_str (fuel : Nat) (s : String) : PM AstNode :=
  parse fuel s.data

end PG

namespace PG

mutual

/-- `ast.rs`: `AstNode::__generate` — lower one AST node into transitions
between `s` and `e`, threading the state-id counter.  The recursion is
fuelled (the Rust recursion is structural, but the unroll loop of `Repeat`
mixes a numeric loop with the AST recursion); the
`panic!("Invalid repeat range")` for `max < min` is a `panicked` error. -/
def gen (fuel : Nat) (node : AstNode) (idp s e : Nat) : PM (List Transition × Nat) :=
  match fuel with
  | 0 => outOfFuel
  | fuel + 1 =>
    match node with
    | .root inner => gen fuel inner idp s e
    | .char c => pure ([Transition.new_cond s e (.char c)], idp)
    | .seq items =>
        match items with
        | [] => pure ([Transition.new s e], idp)
        | item :: rest => genSeqItems fuel (item :: rest) idp s e
    | .alt options id => do
        let inner_start := idp
        let inner_end := idp + 1
        let (ts, idp') ← genAltOptions fuel options (idp + 2) inner_start inner_end
        pure
          ([Transition.new_full s inner_start .none Option.none (.start id)] ++ ts ++
            [Transition.new_full inner_end e .none Option.none (.stop id)], idp')
    | .rep minO maxO child =>
        if (maxO.map (fun v => v == 0)).getD false then
          pure ([Transition.new s e], idp)
        else if (maxO.bind (fun mx => minO.map (fun mn => decide (mx < mn)))).getD false then
          throw (.panicked "invalid repeat range")
        else
          let mn := minO.getD 0
          let req_len :=
            if ((maxO.map (fun v => decide (mn ≤ v))).getD true) && decide (mn > 1) then
              mn - 1
            else 0
          let optional_len := maxO.map (fun v => v - req_len - 1)
          let inner_start := idp
          let inner_end := idp + 1
          let head := [Transition.new s inner_start] ++
            (if mn = 0 then [Transition.new s e] else [])
          do
            let (unrolled, idp', is', ie') ←
              genRepUnroll fuel req_len child (idp + 2) inner_start inner_end
            let (body, idp'') ← gen fuel child idp' is' ie'
            pure
              (head ++ unrolled ++
                [Transition.new_full ie' is' .none optional_len .none] ++ body ++
                [Transition.new ie' e], idp'')
    | .start => pure ([Transition.new_cond s e .start], idp)
    | .stop => pure ([Transition.new_cond s e .stop], idp)
    | .anyChar => pure ([Transition.new_cond s e .anyChar], idp)
    | .charGroup isNegated chars =>
        pure ([Transition.new_cond s e (.charGroup chars isNegated)], idp)
    | .captureRef id =>
        pure ([Transition.new_cond s e (.captureRef id)], idp)
termination_by structural fuel

/-- The per-item loop of the `Seq` arm: each non-final item gets a fresh
target state from the counter, the final one ends at `e`. -/
def genSeqItems (fuel : Nat) (items : List AstNode) (idp from_id e : Nat) :
    PM (List Transition × Nat) :=
  match fuel with
  | 0 => outOfFuel
  | fuel + 1 =>
    match items with
    | [] => pure ([], idp)
    | [item] => gen fuel item idp from_id e
    | item :: next :: rest => do
        let to_id := idp
        let (ts, idp') ← gen fuel item (idp + 1) from_id to_id
        let (ts', idp'') ← genSeqItems fuel (next :: rest) idp' to_id e
        pure (ts ++ ts', idp'')
termination_by structural fuel

/-- The per-option loop of the `Alt` arm: every option is compiled between
the same `inner_start`/`inner_end` pair. -/
def genAltOptions (fuel : Nat) (options : List AstNode) (idp is' ie' : Nat) :
    PM (List Transition × Nat) :=
  match fuel with
  | 0 => outOfFuel
  | fuel + 1 =>
    match options with
    | [] => pure ([], idp)
    | o :: rest => do
        let (ts, idp') ← gen fuel o idp is' ie'
        let (ts', idp'') ← genAltOptions fuel rest idp' is' ie'
        pure (ts ++ ts', idp'')
termination_by structural fuel

/-- The `for _ in 0..req_len` loop of the `Repeat` arm: unroll the minimum
copies, advancing `inner_start ← inner_end` and drawing a fresh
`inner_end` after each copy.  Returns the final `inner_start`/`inner_end`. -/
def genRepUnroll (fuel : Nat) (k : Nat) (child : AstNode) (idp is' ie' : Nat) :
    PM (List Transition × Nat × Nat × Nat) :=
  match fuel with
  | 0 => outOfFuel
  | fuel + 1 =>
    match k with
    | 0 => pure ([], idp, is', ie')
    | k + 1 => do
        let (ts, idp') ← gen fuel child idp is' ie'
        let (ts', idp'', is'', ie'') ← genRepUnroll fuel k child (idp' + 1) ie' idp'
        pure (ts ++ ts', idp'', is'', ie'')
termination_by structural fuel

end

/-- `ast.rs`: `AstNode::generate` — compile `Root` between `START_STATE`
and `END_STATE`, the state counter starting at `END_STATE + 1`. -/
def generate (fuel : Nat) (ast : AstNode) : PM (List Transition) :=
  (gen fuel ast (END_STATE + 1) START_STATE END_STATE).map Prod.fst

end PG

namespace PG

/-- One entry of the evaluator's explicit search stack:
`(remaining tokens, loop id, current state, capturer)`. -/
structure Frame where
  rest : List Token
  loop_id : Nat
  state : Nat
  cap : Capturer
deriving DecidableEq, Repr

/-- `evaluator.rs`: `Evaluator::get_available_transitions` — the outgoing
transitions of a state, in transition-list order. -/
def get_available_transitions (g : List Transition) (state : Nat) : List Transition :=
  g.filter (fun t => t.from_state = state)

/-- A state that is the `from`-state of some `max_use`-bearing edge
(the first set built by `get_loop_start_transitions`). -/
def loop_start_state (g : List Transition) (s : Nat) : Bool :=
  g.any (fun t => t.from_state = s && t.max_use.isSome)

/-- Membership of `(a, b)` in the `loop_start_transitions` set: some edge
`a → b` without `max_use` exists and `b` is a loop-start state. -/
def loop_start_pair (g : List Transition) (a b : Nat) : Bool :=
  g.any (fun t => t.from_state = a && t.to_state = b && t.max_use.isNone) &&
    loop_start_state g b

/-- Association-list model of the visit counter `HashMap<u64, u64>`:
lookup. -/
def lookupV (k : Nat) : List (Nat × Nat) → Option Nat
  | [] => Option.none
  | (k', v) :: t => if k' = k then some v else lookupV k t

/-- `*visit_counter.entry(state).or_default() += 1`. -/
def bumpV (k : Nat) : List (Nat × Nat) → List (Nat × Nat)
  | [] => [(k, 1)]
  | (k', v) :: t => if k' = k then (k', v + 1) :: t else (k', v) :: bumpV k t

/-- The capture-instruction application of the evaluator's transition
processing (the `match tr.capture_group_ins` statement); `none` models a
`Capturer` assertion panic. -/
def applyCapIns (ins : CaptureGroupInstruction) (cap : Capturer) : Option Capturer :=
  match ins with
  | .start id => cap.start_capture id
  | .stop id => cap.end_capture id
  | .none => some cap

/-- The `for tr in available_transitions.iter().rev()` loop body of
`Evaluator::is_match`, one call per transition (the caller passes the
reversed transition list, so pushes onto the head of `stack` reproduce the
Vec-push / LIFO-pop order).  `none` models a `Capturer` assertion panic. -/
def procTrans (g : List Transition) (lid : Nat) (curState : Nat) (frRest : List Token)
    (cap : Capturer) :
    List Transition → List (Nat × Nat) → Nat → List Frame →
    Option (List (Nat × Nat) × Nat × List Frame)
  | [], visit, idp, stack => some (visit, idp, stack)
  | tr :: trs, visit, idp, stack =>
      let isLoopStart := loop_start_pair g tr.from_state tr.to_state
      let lid' := if isLoopStart then idp else lid
      let idp' := if isLoopStart then idp + 1 else idp
      let blocked :=
        match tr.max_use with
        | some mu => decide ((lookupV curState visit).getD 0 ≥ mu)
        | Option.none => false
      if blocked then procTrans g lid curState frRest cap trs visit idp' stack
      else
        match tr.cond.is_match frRest cap.captures with
        | some step =>
            let visit' := if tr.max_use.isSome then bumpV curState visit else visit
            let capPushed := cap.push (frRest.take step)
            match applyCapIns tr.capture_group_ins capPushed with
            | Option.none => Option.none
            | some cap' =>
                procTrans g lid curState frRest cap trs visit' idp'
                  (⟨frRest.drop step, lid', tr.to_state, cap'⟩ :: stack)
        | Option.none => procTrans g lid curState frRest cap trs visit idp' stack

/-- Result of one inner (fixed-offset) search: a `Capturer` assertion
panic, stack exhausted without reaching `END_STATE`, or a hit recording the
end position `chars.len() - stream.len()`. -/
inductive InnerRes where
  | panicked
  | noHit
  | hit : Nat → InnerRes
deriving DecidableEq, Repr

/-- The inner `while let Some(..) = stack.pop()` loop of
`Evaluator::is_match`, fuelled (`none` = fuel ran out; the Rust loop can
genuinely diverge, see the theorems on pattern `(a?)*`). -/
def innerLoop (g : List Transition) (n : Nat) :
    Nat → List (Nat × Nat) → Nat → List Frame → Option InnerRes
  | 0, _, _, _ => Option.none
  | fuel + 1, visit, idp, stack =>
      match stack with
      | [] => some .noHit
      | fr :: rest =>
          if fr.state = END_STATE then some (.hit (n - fr.rest.length))
          else
            match procTrans g fr.loop_id fr.state fr.rest fr.cap
                ((get_available_transitions g fr.state).reverse) visit idp rest with
            | Option.none => some .panicked
            | some (visit', idp', stack') => innerLoop g n fuel visit' idp' stack'

/-- `evaluator.rs`: `EvalMatchResult`, extended with the `panicked` outcome
for a `Capturer` assertion failure. -/
inductive EvalMatchResult where
  | noMatch
  | matched : List (Nat × Nat) → EvalMatchResult
  | panicked
deriving DecidableEq, Repr

/-- The outer `'main_loop: while offset < chars.len()` loop of
`Evaluator::is_match`: each offset starts a fresh visit counter, a fresh
`Incrementer` (the initial frame takes loop id `0`, leaving the counter at
`1`) and a fresh capturer; a hit records `(offset, end)` and restarts at
`max(end, offset + 1)`. -/
def outerLoop (g : List Transition) (chars : List Token) :
    Nat → Nat → List (Nat × Nat) → Option EvalMatchResult
  | 0, _, _ => Option.none
  | fuel + 1, offset, acc =>
      if offset < chars.length then
        match innerLoop g chars.length (fuel + 1) [] 1
            [⟨chars.drop offset, 0, START_STATE, Capturer.new⟩] with
        | Option.none => Option.none
        | some .panicked => some .panicked
        | some .noHit => outerLoop g chars fuel (offset + 1) acc
        | some (.hit e) =>
            outerLoop g chars fuel (max e (offset + 1)) (acc ++ [(offset, e)])
      else
        some (if acc.isEmpty then .noMatch else .matched acc)

/-- `evaluator.rs`: `Evaluator::is_match`, fuelled. -/
def is_match (fuel : Nat) (g : List Transition) (chars : List Token) :
    Option EvalMatchResult :=
  outerLoop g chars fuel 0 []

end PG

namespace PG

/-- Reference recursion for the merge fold: keep a current range, push it
when the next sorted range starts after its end, otherwise overwrite the
current end with the next range's end (exactly the `else` branch of the
Rust loop, which assigns `out.last_mut().1 = end` rather than a maximum). -/
def mergeAux : (Nat × Nat) → List (Nat × Nat) → List (Nat × Nat)
  | cur, [] => [cur]
  | (cs, ce), (s, e) :: rest =>
      if ce < s then (cs, ce) :: mergeAux (s, e) rest
      else mergeAux (cs, e) rest

mutual

/-- Modelled from the spec: the declarative matching relation of the regex
dialect (§3/§8 of the spec), used as the reference side of the
bounded-repeat and backreference laws.  `SpecMatch x u` says the plain
subexpression `x` matches exactly the character string `u`.  Anchors and
backreferences have no rules here (the laws under scrutiny only apply it
to anchor-free, backreference-free subexpressions). -/
inductive SpecMatch : AstNode → List Char → Prop where
  | char {lit : Literal} {c : Char} :
      lit.is_match (some (Token.char c)) = some 1 → SpecMatch (.char lit) [c]
  | anyChar {c : Char} : SpecMatch .anyChar [c]
  | charGroup {neg : Bool} {chars : List Literal} {c : Char} :
      Cond.is_match (.charGroup chars neg) [Token.char c] [] = some 1 →
      SpecMatch (.charGroup neg chars) [c]
  | seqNil : SpecMatch (.seq []) []
  | seqCons {x : AstNode} {xs : List AstNode} {u v : List Char} :
      SpecMatch x u → SpecMatch (.seq xs) v → SpecMatch (.seq (x :: xs)) (u ++ v)
  | alt {options : List AstNode} {id : Nat} {o : AstNode} {u : List Char} :
      o ∈ options → SpecMatch o u → SpecMatch (.alt options id) u
  | rep {minO maxO : Option Nat} {node : AstNode} {k : Nat} {s : List Char} :
      minO.getD 0 ≤ k → (∀ m, maxO = some m → k ≤ m) →
      SpecPow node k s → SpecMatch (.rep minO maxO node) s
  | root {x : AstNode} {u : List Char} : SpecMatch x u → SpecMatch (.root x) u

/-- Modelled from the spec: `SpecPow x k s` — `s` is a concatenation of
exactly `k` matches of `x` ("s is a concatenation of between n and m
matches of X" is `∃ k, n ≤ k ∧ k ≤ m ∧ SpecPow x k s`). -/
inductive SpecPow : AstNode → Nat → List Char → Prop where
  | zero {x : AstNode} : SpecPow x 0 []
  | succ {x : AstNode} {k : Nat} {u v : List Char} :
      SpecMatch x u → SpecPow x k v → SpecPow x (k + 1) (u ++ v)

end

/-- The pipeline of `main.rs`: parse the pattern, generate the transition
graph, run the evaluator on the tokenized subject.  `none` means a parse
error, a compile panic, or fuel exhaustion. -/
def eval_pattern (fuel : Nat) (pat subj : String) : Option EvalMatchResult :=
  match (parse_regex_str fuel pat).run with
  | some (.ok ast) =>
      match (generate fuel ast).run with
      | some (.ok g) => is_match fuel g (str_to_tokens subj)
      | _ => Option.none
  | _ => Option.none

/-- The subexpression `(a|aa)` with group id `gid`, as the parser produces
it. -/
def alt_a_aa (gid : Nat) : AstNode :=
  .alt [.seq [.char (.char 'a')], .seq [.char (.char 'a'), .char (.char 'a')]] gid

/-- The compiled graph of the pattern `(a?)*` (verified against
`generate` in the C1 theorem): an unbounded epsilon back-edge `3 → 2`
closes an all-epsilon cycle `2 → 4 → 5 → 3 → 2` through the capture
epsilons of the group, which the depth-first search can traverse without
consuming input. -/
def g_c1 : List Transition :=
  [Transition.new 0 2,
   Transition.new 0 1,
   Transition.new 3 2,
   Transition.new_full 2 4 .none Option.none (.start 1),
   Transition.new 4 6,
   Transition.new 4 5,
   Transition.new_full 7 6 .none (some 0) .none,
   Transition.new_cond 6 7 (.char (.char 'a')),
   Transition.new 7 5,
   Transition.new_full 5 3 .none Option.none (.stop 1),
   Transition.new 3 1]

/-- The token stream of the empty subject. -/
def toks_empty : List Token := [Token.start, Token.stop]

/-- The trap invariant of the `(a?)*` search on the empty subject: the top
of the stack cycles through states `2 → 4 → (6, then 5) → 5 → 3 → 2`, the
stream is still the whole input, and the group-1 capture stack is `[1]`
inside the group and `[]` outside; the capture map, loop ids, visit
counter, id counter and the rest of the stack are arbitrary. -/
def C1Inv (stack : List Frame) : Prop :=
  (∃ lid caps rest, stack = ⟨toks_empty, lid, 2, ⟨caps, []⟩⟩ :: rest) ∨
  (∃ lid caps rest, stack = ⟨toks_empty, lid, 4, ⟨caps, [1]⟩⟩ :: rest) ∨
  (∃ lid lid' caps caps' rest,
    stack = ⟨toks_empty, lid, 6, ⟨caps, [1]⟩⟩ :: ⟨toks_empty, lid', 5, ⟨caps', [1]⟩⟩ :: rest) ∨
  (∃ lid caps rest, stack = ⟨toks_empty, lid, 5, ⟨caps, [1]⟩⟩ :: rest) ∨
  (∃ lid caps rest, stack = ⟨toks_empty, lid, 3, ⟨caps, []⟩⟩ :: rest)

/-- The effect of a capture instruction on the stack of open group ids:
exactly the `currents`-effect of `Capturer::start_capture` /
`Capturer::end_capture`, with `none` for a failed assertion. -/
def capStep : CaptureGroupInstruction → List Nat → Option (List Nat)
  | .none, st => some st
  | .start id, st => if st.contains id then Option.none else some (id :: st)
  | .stop id, st =>
      match st with
      | [] => Option.none
      | top :: rest => if id = top then some rest else Option.none

/-- Well-scoped group ids: every `Alt` id is distinct from the ids of all
enclosing groups (`γ` is the surrounding context, outermost last).  The
parser guarantees this because the group-id counter is monotone and an id
is drawn strictly before its body is parsed. -/
inductive NodeIdsOk : AstNode → List Nat → Prop where
  | root {inner γ} : NodeIdsOk inner γ → NodeIdsOk (.root inner) γ
  | char {l γ} : NodeIdsOk (.char l) γ
  | seq {items γ} : (∀ i ∈ items, NodeIdsOk i γ) → NodeIdsOk (.seq items) γ
  | alt {options id γ} : id ∉ γ → (∀ o ∈ options, NodeIdsOk o (id :: γ)) →
      NodeIdsOk (.alt options id) γ
  | rep {mn mx child γ} : NodeIdsOk child γ → NodeIdsOk (.rep mn mx child) γ
  | start {γ} : NodeIdsOk .start γ
  | stop {γ} : NodeIdsOk .stop γ
  | anyChar {γ} : NodeIdsOk .anyChar γ
  | charGroup {neg chars γ} : NodeIdsOk (.charGroup neg chars) γ
  | captureRef {id γ} : NodeIdsOk (.captureRef id) γ

/-- A capture-context labelling of a transition graph: every state carries
the stack of group ids open at that state, consistently along every edge.
Such a labelling makes the capturer's stack a function of the current
state alone. -/
def CapLabeled (g : List Transition) (ctx : Nat → List Nat) : Prop :=
  ∀ tr ∈ g, capStep tr.capture_group_ins (ctx tr.from_state) = some (ctx tr.to_state)

/-- Pointwise update of a state labelling. -/
def updCtx (ctx : Nat → List Nat) (x : Nat) (v : List Nat) : Nat → List Nat :=
  fun y => if y = x then v else ctx y

/-- The reachable `(visit counter, id counter, stack)` configurations of
one inner search of `Evaluator::is_match`: exactly the states the
`while let Some(..) = stack.pop()` loop passes through (a pop of a
non-`END_STATE` frame followed by the transition-processing loop). -/
inductive InnerReach (g : List Transition) :
    List (Nat × Nat) × Nat × List Frame → List (Nat × Nat) × Nat × List Frame → Prop where
  | refl (σ : List (Nat × Nat) × Nat × List Frame) : InnerReach g σ σ
  | step {σ : List (Nat × Nat) × Nat × List Frame} {visit : List (Nat × Nat)} {idp : Nat}
      {fr : Frame} {rest : List Frame} {σ' : List (Nat × Nat) × Nat × List Frame} :
      InnerReach g σ (visit, idp, fr :: rest) →
      fr.state ≠ END_STATE →
      procTrans g fr.loop_id fr.state fr.rest fr.cap
        ((get_available_transitions g fr.state).reverse) visit idp rest = some σ' →
      InnerReach g σ σ'

/-- **C3.**  The claim: a backslash followed by a nonzero ASCII digit and
further digits parses to a single `CaptureRef(id)` with `id` the decimal
value of the entire digit run, consuming all subsequent digits.  The code
disagrees twice: `Reader::parse_while` breaks unconditionally after the
first element, so `\12` parses to `CaptureRef(1)` followed by a literal
`'2'`; and the match arm uses the half-open range `'1'..'9'`, so `\9` is
not a backreference at all but the literal `'9'`.  Only single-digit
references `\1`..`\8` behave as claimed. -/
theorem c3_capture_ref_escape_digits :
    (parse_regex_str 100 "\\12").run =
      some (.ok (.root (.seq [.captureRef 1, .char (.char '2')]))) ∧
    (parse_regex_str 100 "\\9").run =
      some (.ok (.root (.seq [.char (.char '9')]))) ∧
    (parse_regex_str 100 "\\1").run =
      some (.ok (.root (.seq [.captureRef 1]))) ∧
    (parse_regex_str 100 "\\8a").run =
      some (.ok (.root (.seq [.captureRef 8, .char (.char 'a')]))) :=
  ⟨rfl, rfl, rfl, rfl⟩

/-- **C4.**  The claim: `A{n}`, `A{n,}`, `A{n,m}` map to the corresponding
`Repeat` nodes for numerals of any number of digits.  Single-digit numerals
do map as claimed, but because `Reader::parse_while` takes at most one
character, any multi-digit numeral leaves its remaining digits in the
stream and the subsequent `assert_pop('}')` fails: `a{12}` is a typed parse
error instead of `Repeat{min:Some(12), max:Some(12)}`. -/
theorem c4_brace_quantifier_digits :
    (parse_regex_str 100 "a\x7b3\x7d").run =
      some (.ok (.root (.seq [.rep (some 3) (some 3) (.char (.char 'a'))]))) ∧
    (parse_regex_str 100 "a\x7b3,\x7d").run =
      some (.ok (.root (.seq [.rep (some 3) Option.none (.char (.char 'a'))]))) ∧
    (parse_regex_str 100 "a\x7b3,5\x7d").run =
      some (.ok (.root (.seq [.rep (some 3) (some 5) (.char (.char 'a'))]))) ∧
    (parse_regex_str 100 "a\x7b12\x7d").run = some (.error (.typed "unexpected token")) :=
  ⟨rfl, rfl, rfl, rfl⟩

/-- **C7.**  The claim: every listed malformed pattern yields a typed parse
error rather than a panic/abort.  Unclosed `(` and `[`, missing digits
after `{`, an invalid numeral and a non-digit before `,`/`}` indeed return
typed errors, but a pattern ending in a bare backslash hits
`panic!("Missing char after \\")`, and an unclosed `{` whose digits reach
the end of input panics via out-of-bounds indexing inside
`Reader::assert_pop`. -/
theorem c7_malformed_pattern_errors :
    (parse_regex_str 100 "(a").run = some (.error (.typed "invalid ending of paren group")) ∧
    (parse_regex_str 100 "[a").run =
      some (.error (.typed "expected closing brace, got empty")) ∧
    (parse_regex_str 100 "a\x7b").run =
      some (.error (.typed "cannot parse integer from empty string")) ∧
    (parse_regex_str 100 "a\x7bx\x7d").run =
      some (.error (.typed "cannot parse integer from empty string")) ∧
    (parse_regex_str 100 "a\x7b1,x\x7d").run =
      some (.error (.typed "cannot parse integer from empty string")) ∧
    (parse_regex_str 100 "\\").run = some (.error (.panicked "missing char after backslash")) ∧
    (parse_regex_str 100 "a\x7b1").run = some (.error (.panicked "index out of bounds")) :=
  ⟨rfl, rfl, rfl, rfl, rfl, rfl, rfl⟩

end PG

namespace PG

theorem foldl_mergeStep_eq :
    ∀ (t : List (Nat × Nat)) (cur : Nat × Nat) (accRev : List (Nat × Nat)),
      (t.foldl mergeStep (cur :: accRev)).reverse = accRev.reverse ++ mergeAux cur t := by
  intro t
  induction t with
  | nil => intro cur accRev; simp [mergeAux]
  | cons hd tl ih =>
      intro cur accRev
      obtain ⟨s, e⟩ := hd
      obtain ⟨cs, ce⟩ := cur
      by_cases h : ce < s
      · rw [List.foldl_cons,
          show mergeStep ((cs, ce) :: accRev) (s, e) = (s, e) :: (cs, ce) :: accRev from by
            simp [mergeStep, h],
          ih (s, e) ((cs, ce) :: accRev)]
        simp [mergeAux, h]
      · rw [List.foldl_cons,
          show mergeStep ((cs, ce) :: accRev) (s, e) = (cs, e) :: accRev from by
            simp [mergeStep, h],
          ih (cs, e) accRev]
        simp [mergeAux, h]

theorem merge_eq_mergeAux (rs : List (Nat × Nat)) :
    merge_overlapping_match_ranges rs =
      (match sortRanges rs with
       | [] => []
       | h :: t => mergeAux h t) := by
  unfold merge_overlapping_match_ranges
  cases hs : sortRanges rs with
  | nil => simp
  | cons h t =>
      rw [List.foldl_cons, show mergeStep [] h = [h] from by cases h; rfl]
      have := foldl_mergeStep_eq t h []
      simpa using this

theorem mergeAux_invariant :
    ∀ (rest : List (Nat × Nat)) (cur : Nat × Nat),
      (∀ p ∈ cur :: rest, p.1 ≤ p.2) →
      List.Sorted rangeLe (cur :: rest) →
      (∃ e0 t0, mergeAux cur rest = (cur.1, e0) :: t0) ∧
      (∀ p ∈ mergeAux cur rest, p.1 ≤ p.2) ∧
      (∀ p ∈ mergeAux cur rest, cur.1 ≤ p.1) ∧
      List.Pairwise (fun a b : Nat × Nat => a.2 < b.1) (mergeAux cur rest) ∧
      List.Sorted rangeLe (mergeAux cur rest) := by
  intro rest
  induction rest with
  | nil =>
      intro cur hwf _hs
      obtain ⟨cs, ce⟩ := cur
      refine ⟨⟨ce, [], rfl⟩, ?_, ?_, ?_, ?_⟩ <;>
        simp [mergeAux, hwf (cs, ce) (by simp)]
  | cons hd tl ih =>
      intro cur hwf hsort
      obtain ⟨s, e⟩ := hd
      obtain ⟨cs, ce⟩ := cur
      have hsort1 := List.sorted_cons.mp hsort
      have hcs_s : cs ≤ s := by
        rcases hsort1.1 (s, e) (by simp) with h | ⟨h, _⟩
        · exact Nat.le_of_lt h
        · exact Nat.le_of_eq h
      have hwf_cur : cs ≤ ce := hwf (cs, ce) (by simp)
      have hwf_se : s ≤ e := hwf (s, e) (by simp)
      by_cases h : ce < s
      · have hrec := ih (s, e)
          (fun p hp => hwf p (List.mem_cons_of_mem _ hp))
          hsort1.2
        obtain ⟨⟨e0, t0, hshape⟩, hwfo, hgeo, hpwo, hso⟩ := hrec
        rw [show mergeAux (cs, ce) ((s, e) :: tl) = (cs, ce) :: mergeAux (s, e) tl from by
          simp [mergeAux, h]]
        refine ⟨⟨ce, mergeAux (s, e) tl, rfl⟩, ?_, ?_, ?_, ?_⟩
        · intro p hp
          rcases List.mem_cons.mp hp with rfl | hp
          · exact hwf_cur
          · exact hwfo p hp
        · intro p hp
          rcases List.mem_cons.mp hp with rfl | hp
          · exact Nat.le_refl _
          · exact Nat.le_trans hcs_s (hgeo p hp)
        · refine List.pairwise_cons.mpr ⟨?_, hpwo⟩
          intro q hq
          exact Nat.lt_of_lt_of_le h (hgeo q hq)
        · refine List.sorted_cons.mpr ⟨?_, hso⟩
          intro q hq
          exact Or.inl (Nat.lt_of_le_of_lt hwf_cur (Nat.lt_of_lt_of_le h (hgeo q hq)))
      · have hwf' : ∀ p ∈ (cs, e) :: tl, p.1 ≤ p.2 := by
          intro p hp
          rcases List.mem_cons.mp hp with rfl | hp
          · exact Nat.le_trans hcs_s hwf_se
          · exact hwf p (List.mem_cons_of_mem _ (List.mem_cons_of_mem _ hp))
        have hsort' : List.Sorted rangeLe ((cs, e) :: tl) := by
          refine List.sorted_cons.mpr ⟨?_, (List.sorted_cons.mp hsort1.2).2⟩
          intro q hq
          rcases (List.sorted_cons.mp hsort1.2).1 q hq with h' | ⟨h', h2'⟩
          · exact Or.inl (Nat.lt_of_le_of_lt hcs_s h')
          · rcases Nat.lt_or_ge cs s with hlt | hge
            · exact Or.inl (h' ▸ hlt)
            · have : cs = s := Nat.le_antisymm hcs_s hge
              exact Or.inr ⟨this.trans h', h2'⟩
        have hrec := ih (cs, e) hwf' hsort'
        rw [show mergeAux (cs, ce) ((s, e) :: tl) = mergeAux (cs, e) tl from by
          simp [mergeAux, h]]
        exact hrec

theorem mergeAux_of_chain :
    ∀ (rest : List (Nat × Nat)) (cur : Nat × Nat),
      List.Chain' (fun a b : Nat × Nat => a.2 < b.1) (cur :: rest) →
      mergeAux cur rest = cur :: rest := by
  intro rest
  induction rest with
  | nil => intro cur _; obtain ⟨cs, ce⟩ := cur; rfl
  | cons hd tl ih =>
      intro cur hch
      obtain ⟨s, e⟩ := hd
      obtain ⟨cs, ce⟩ := cur
      have h1 : ce < s := (List.chain'_cons.mp hch).1
      have h2 := (List.chain'_cons.mp hch).2
      simp [mergeAux, h1, ih _ h2]

theorem sortRanges_of_sorted {l : List (Nat × Nat)} (h : l.Sorted rangeLe) :
    sortRanges l = l :=
  List.eq_of_perm_of_sorted (List.perm_insertionSort _ _)
    (List.sorted_insertionSort _ _) h

end PG

namespace PG

/-- **C6** (counterexample).  The claim requires the fold to merge a group
of adjacent/overlapping ranges into a single range whose end is the
*maximum* end of the group, so merging `(0,10)` with `(2,3)` must yield
`(0,10)`.  The code instead executes `out.last_mut().unwrap().1 = end`,
overwriting the accumulated end with the later range's end, and produces
`(0,3)`. -/
theorem c6_merge_not_maximum :
    merge_overlapping_match_ranges [(0, 10), (2, 3)] = [(0, 3)] ∧
    merge_overlapping_match_ranges [(0, 10), (2, 3)] ≠ [(0, 10)] := by
  constructor
  · rfl
  · decide

/-- **C6** (amended).  `merge_overlapping_match_ranges(ranges)` sorts the
ranges ascending (lexicographically, Rust's derived tuple order) and folds
every group of adjacent/overlapping ranges into a single range whose end is
the end of the **last** range of the group in sorted order (not the maximum
end): this is exactly the reference recursion `mergeAux`. -/
theorem c6_merge_equals_sort_then_fold (rs : List (Nat × Nat)) :
    merge_overlapping_match_ranges rs =
      (match sortRanges rs with
       | [] => []
       | h :: t => mergeAux h t) :=
  merge_eq_mergeAux rs

/-- **C9** (counterexample).  For arbitrary `(start, end)` pairs the
function is *not* idempotent: with `R = [(5,3),(5,9),(6,0)]` (the last pair
has `end < start`) one pass yields `[(5,3),(5,0)]`, whose re-sort swaps the
two pairs and a second pass yields `[(5,0),(5,3)]`. -/
theorem c9_not_idempotent_in_general :
    merge_overlapping_match_ranges (merge_overlapping_match_ranges [(5, 3), (5, 9), (6, 0)]) ≠
      merge_overlapping_match_ranges [(5, 3), (5, 9), (6, 0)] := by
  decide

/-- **C9** (amended).  For every list of *well-formed* ranges
(`start ≤ end`, which all ranges produced by the evaluator satisfy),
`merge_overlapping_match_ranges` is idempotent and its output is sorted
ascending and pairwise disjoint (every range ends strictly before the next
one starts). -/
theorem c9_idempotent_sorted_disjoint (rs : List (Nat × Nat))
    (hwf : ∀ p ∈ rs, p.1 ≤ p.2) :
    merge_overlapping_match_ranges (merge_overlapping_match_ranges rs) =
      merge_overlapping_match_ranges rs ∧
    List.Sorted rangeLe (merge_overlapping_match_ranges rs) ∧
    List.Pairwise (fun a b : Nat × Nat => a.2 < b.1) (merge_overlapping_match_ranges rs) := by
  rcases hs : sortRanges rs with _ | ⟨h, t⟩
  · have hempty : merge_overlapping_match_ranges rs = [] := by
      rw [merge_eq_mergeAux, hs]
    refine ⟨?_, ?_, ?_⟩ <;> simp [hempty, merge_eq_mergeAux, sortRanges]
  · have hsorted : List.Sorted rangeLe (h :: t) := by
      have := List.sorted_insertionSort rangeLe rs
      rwa [show List.insertionSort rangeLe rs = sortRanges rs from rfl, hs] at this
    have hwf' : ∀ p ∈ h :: t, p.1 ≤ p.2 := by
      intro p hp
      apply hwf
      have : p ∈ sortRanges rs := hs ▸ hp
      exact (List.perm_insertionSort rangeLe rs).subset this
    obtain ⟨⟨e0, t0, hshape⟩, hwfo, _hgeo, hpwo, hso⟩ := mergeAux_invariant t h hwf' hsorted
    have hmerge : merge_overlapping_match_ranges rs = mergeAux h t := by
      rw [merge_eq_mergeAux, hs]
    refine ⟨?_, hmerge ▸ hso, hmerge ▸ hpwo⟩
    rw [hmerge, merge_eq_mergeAux (mergeAux h t), sortRanges_of_sorted hso]
    rcases hout : mergeAux h t with _ | ⟨h', t'⟩
    · rfl
    · have hchain : List.Chain' (fun a b : Nat × Nat => a.2 < b.1) (h' :: t') :=
        hout ▸ hpwo.chain'
      exact mergeAux_of_chain t' h' hchain

/-- **C9** witness: the amended theorem applied at the concrete well-formed
input `[(1,2),(0,5)]`. -/
theorem c9_idempotent_sorted_disjoint_witness :
    (∀ p ∈ ([(1, 2), (0, 5)] : List (Nat × Nat)), p.1 ≤ p.2) ∧
    (merge_overlapping_match_ranges (merge_overlapping_match_ranges [(1, 2), (0, 5)]) =
        merge_overlapping_match_ranges [(1, 2), (0, 5)] ∧
      List.Sorted rangeLe (merge_overlapping_match_ranges [(1, 2), (0, 5)]) ∧
      List.Pairwise (fun a b : Nat × Nat => a.2 < b.1)
        (merge_overlapping_match_ranges [(1, 2), (0, 5)])) :=
  ⟨by decide, c9_idempotent_sorted_disjoint [(1, 2), (0, 5)] (by decide)⟩

end PG


namespace PG

theorem specMatch_a (gid : Nat) : SpecMatch (alt_a_aa gid) ['a'] := by
  have hc : SpecMatch (.char (Literal.char 'a')) ['a'] := .char rfl
  have hs : SpecMatch (.seq [.char (Literal.char 'a')]) (['a'] ++ []) :=
    .seqCons hc .seqNil
  exact .alt (List.Mem.head _) (by simpa using hs)

theorem specMatch_aa (gid : Nat) : SpecMatch (alt_a_aa gid) ['a', 'a'] := by
  have hc : SpecMatch (.char (Literal.char 'a')) ['a'] := .char rfl
  have hs : SpecMatch (.seq [.char (Literal.char 'a'), .char (Literal.char 'a')])
      (['a'] ++ (['a'] ++ [])) :=
    .seqCons hc (.seqCons hc .seqNil)
  exact .alt (List.Mem.tail _ (List.Mem.head _)) (by simpa using hs)

theorem specPow_aaaaa (gid : Nat) : SpecPow (alt_a_aa gid) 3 "aaaaa".data := by
  have h : SpecPow (alt_a_aa gid) 3 (['a'] ++ (['a', 'a'] ++ (['a', 'a'] ++ []))) :=
    .succ (specMatch_a gid) (.succ (specMatch_aa gid) (.succ (specMatch_aa gid) .zero))
  simpa using h

/-- **C2.**  The bounded-repeat law fails on the code.  With
`X = (a|aa)`, `n = 2`, `m = 3` the subject `aaaaa` *is* a concatenation of
between 2 and 3 matches of `X` (namely `a · aa · aa`), yet the evaluator
rejects `^(a|aa){2,3}$` on `aaaaa`: the DFS first explores the laps
`a · a`, pushing the loop back-edge and incrementing the visit counter —
which is keyed by from-state alone and shared across all backtracking
branches — so when it later backtracks to the decompositions that need a
third lap after a two-character lap, the back-edge is already exhausted
and every accepting decomposition is blocked. -/
theorem c2_bounded_repeat_law_fails :
    (∃ k, 2 ≤ k ∧ k ≤ 3 ∧ SpecPow (alt_a_aa 1) k "aaaaa".data) ∧
    (parse_regex_str 2000 "^(a|aa)\x7b2,3\x7d$").run =
      some (.ok (.root (.seq [.start, .rep (some 2) (some 3) (alt_a_aa 1), .stop]))) ∧
    eval_pattern 2000 "^(a|aa)\x7b2,3\x7d$" "aaaaa" = some .noMatch := by
  refine ⟨⟨3, by decide, by decide, specPow_aaaaa 1⟩, rfl, by decide⟩

/-- **C5.**  The backreference law fails on the code.  Take
`P = (a|aa){2,3}` and `Q` empty, i.e. the pattern `^((a|aa){2,3})\1$`, and
`s` = ten `a`s.  The split `s = u · v · w` with `u = w = aaaaa` (five `a`s,
`P` matches `u` as `a · aa · aa`) and `v` empty satisfies the law's right
hand side, yet the evaluator rejects: the shared visit counter (the C2
defect, here inside `P`) only lets group 1 capture 2, 3 or 4 characters,
never 5, so no split with `w` literally equal to `u` is ever reached. -/
theorem c5_backref_law_fails :
    (∃ u v w : List Char,
      "aaaaaaaaaa".data = u ++ v ++ w ∧
      SpecMatch (.rep (some 2) (some 3) (alt_a_aa 2)) u ∧
      SpecMatch (.seq []) v ∧
      w = u) ∧
    (parse_regex_str 4000 "^((a|aa)\x7b2,3\x7d)\\1$").run =
      some (.ok (.root (.seq [.start,
        .alt [.seq [.rep (some 2) (some 3) (alt_a_aa 2)]] 1,
        .captureRef 1, .stop]))) ∧
    eval_pattern 4000 "^((a|aa)\x7b2,3\x7d)\\1$" "aaaaaaaaaa" = some .noMatch := by
  refine ⟨⟨['a', 'a', 'a', 'a', 'a'], [], ['a', 'a', 'a', 'a', 'a'], rfl, ?_, .seqNil, rfl⟩,
    rfl, by decide⟩
  have hpow : SpecPow (alt_a_aa 2) 3 ['a', 'a', 'a', 'a', 'a'] := by
    have h : SpecPow (alt_a_aa 2) 3 (['a'] ++ (['a', 'a'] ++ (['a', 'a'] ++ []))) :=
      .succ (specMatch_a 2) (.succ (specMatch_aa 2) (.succ (specMatch_aa 2) .zero))
    simpa using h
  exact @SpecMatch.rep (some 2) (some 3) (alt_a_aa 2) 3 ['a', 'a', 'a', 'a', 'a']
    (by decide) (fun m hm => by cases hm; decide) hpow

end PG

namespace PG

theorem c1_stepA (fuel lid idp : Nat) (visit : List (Nat × Nat))
    (caps : List (Nat × List Char)) (rest : List Frame) :
    innerLoop g_c1 2 (fuel + 1) visit idp (⟨toks_empty, lid, 2, ⟨caps, []⟩⟩ :: rest) =
      innerLoop g_c1 2 fuel visit idp
        (⟨toks_empty, lid, 4, ⟨insertA 1 [] caps, [1]⟩⟩ :: rest) := rfl

theorem c1_stepB (fuel lid idp : Nat) (visit : List (Nat × Nat))
    (caps : List (Nat × List Char)) (rest : List Frame) :
    innerLoop g_c1 2 (fuel + 1) visit idp (⟨toks_empty, lid, 4, ⟨caps, [1]⟩⟩ :: rest) =
      innerLoop g_c1 2 fuel visit idp
        (⟨toks_empty, lid, 6, ⟨caps, [1]⟩⟩ :: ⟨toks_empty, lid, 5, ⟨caps, [1]⟩⟩ :: rest) := rfl

theorem c1_stepC (fuel lid lid' idp : Nat) (visit : List (Nat × Nat))
    (caps caps' : List (Nat × List Char)) (rest : List Frame) :
    innerLoop g_c1 2 (fuel + 1) visit idp
        (⟨toks_empty, lid, 6, ⟨caps, [1]⟩⟩ :: ⟨toks_empty, lid', 5, ⟨caps', [1]⟩⟩ :: rest) =
      innerLoop g_c1 2 fuel visit (idp + 1)
        (⟨toks_empty, lid', 5, ⟨caps', [1]⟩⟩ :: rest) := rfl

theorem c1_stepD (fuel lid idp : Nat) (visit : List (Nat × Nat))
    (caps : List (Nat × List Char)) (rest : List Frame) :
    innerLoop g_c1 2 (fuel + 1) visit idp (⟨toks_empty, lid, 5, ⟨caps, [1]⟩⟩ :: rest) =
      innerLoop g_c1 2 fuel visit idp (⟨toks_empty, lid, 3, ⟨caps, []⟩⟩ :: rest) := rfl

theorem c1_stepE (fuel lid idp : Nat) (visit : List (Nat × Nat))
    (caps : List (Nat × List Char)) (rest : List Frame) :
    innerLoop g_c1 2 (fuel + 1) visit idp (⟨toks_empty, lid, 3, ⟨caps, []⟩⟩ :: rest) =
      innerLoop g_c1 2 fuel visit idp
        (⟨toks_empty, lid, 2, ⟨caps, []⟩⟩ :: ⟨toks_empty, lid, 1, ⟨caps, []⟩⟩ :: rest) := rfl

theorem c1_inner_diverges :
    ∀ (fuel : Nat) (visit : List (Nat × Nat)) (idp : Nat) (stack : List Frame),
      C1Inv stack → innerLoop g_c1 2 fuel visit idp stack = Option.none := by
  intro fuel
  induction fuel with
  | zero => intro visit idp stack _; rfl
  | succ fuel ih =>
      intro visit idp stack hinv
      rcases hinv with ⟨lid, caps, rest, rfl⟩ | ⟨lid, caps, rest, rfl⟩ |
        ⟨lid, lid', caps, caps', rest, rfl⟩ | ⟨lid, caps, rest, rfl⟩ | ⟨lid, caps, rest, rfl⟩
      · rw [c1_stepA]
        exact ih _ _ _ (Or.inr (Or.inl ⟨lid, insertA 1 [] caps, rest, rfl⟩))
      · rw [c1_stepB]
        exact ih _ _ _ (Or.inr (Or.inr (Or.inl ⟨lid, lid, caps, caps, rest, rfl⟩)))
      · rw [c1_stepC]
        exact ih _ _ _ (Or.inr (Or.inr (Or.inr (Or.inl ⟨lid', caps', rest, rfl⟩))))
      · rw [c1_stepD]
        exact ih _ _ _ (Or.inr (Or.inr (Or.inr (Or.inr ⟨lid, caps, rest, rfl⟩))))
      · rw [c1_stepE]
        exact ih _ _ _
          (Or.inl ⟨lid, caps, ⟨toks_empty, lid, 1, ⟨caps, []⟩⟩ :: rest, rfl⟩)

/-- **C1.**  The claim asserts that the evaluator's search terminates for
every parser-accepted pattern — in particular for `(a?)*`, whose loop
back-edge is an epsilon with `max_use = None`.  It does not: on the empty
subject the depth-first search enters the all-epsilon cycle
`2 → 4 → 5 → 3 →(back-edge)→ 2` of the compiled graph of `(a?)*`; the
back-edge is neither consuming nor counter-bounded, so the search never
returns, for any amount of fuel.  (The claim's own premise — every edge
consumes or is counter-bounded — fails for exactly this edge.) -/
theorem c1_evaluator_diverges :
    (parse_regex_str 100 "(a?)*").run =
      some (.ok (.root (.seq [.rep Option.none Option.none
        (.alt [.seq [.rep Option.none (some 1) (.char (.char 'a'))]] 1)]))) ∧
    (generate 100 (.root (.seq [.rep Option.none Option.none
        (.alt [.seq [.rep Option.none (some 1) (.char (.char 'a'))]] 1)]))).run =
      some (.ok g_c1) ∧
    str_to_tokens "" = toks_empty ∧
    ∀ fuel, is_match fuel g_c1 (str_to_tokens "") = Option.none := by
  refine ⟨rfl, rfl, rfl, ?_⟩
  intro fuel
  cases fuel with
  | zero => rfl
  | succ fuel =>
      show outerLoop g_c1 (str_to_tokens "") (fuel + 1) 0 [] = Option.none
      have h0 : innerLoop g_c1 2 (fuel + 1) [] 1
          [⟨toks_empty, 0, 0, Capturer.new⟩] = Option.none := by
        cases fuel with
        | zero => rfl
        | succ fuel =>
            have hstep : innerLoop g_c1 2 (fuel + 1 + 1) [] 1
                [⟨toks_empty, 0, 0, Capturer.new⟩] =
                innerLoop g_c1 2 (fuel + 1) [] 1
                  (⟨toks_empty, 0, 2, Capturer.new⟩ ::
                    [⟨toks_empty, 0, 1, Capturer.new⟩]) := rfl
            rw [hstep]
            exact c1_inner_diverges _ _ _ _ (Or.inl ⟨0, [], _, rfl⟩)
      show (match innerLoop g_c1 2 (fuel + 1) [] 1
          [⟨str_to_tokens "", 0, START_STATE, Capturer.new⟩] with
        | Option.none => Option.none
        | some .panicked => some EvalMatchResult.panicked
        | some .noHit => outerLoop g_c1 (str_to_tokens "") fuel 1 []
        | some (.hit e) => outerLoop g_c1 (str_to_tokens "") fuel (max e 1) [(0, e)]) =
          Option.none
      rw [show (⟨str_to_tokens "", 0, START_STATE, Capturer.new⟩ : Frame) =
        ⟨toks_empty, 0, 0, Capturer.new⟩ from rfl, h0]

end PG


namespace PG

theorem procTrans_nil (g : List Transition) (lid curState : Nat) (frRest : List Token)
    (cap : Capturer) (visit : List (Nat × Nat)) (idp : Nat) (stack : List Frame) :
    procTrans g lid curState frRest cap [] visit idp stack = some (visit, idp, stack) := rfl

theorem procTrans_cons (g : List Transition) (lid curState : Nat) (frRest : List Token)
    (cap : Capturer) (tr : Transition) (trs : List Transition) (visit : List (Nat × Nat))
    (idp : Nat) (stack : List Frame) :
    procTrans g lid curState frRest cap (tr :: trs) visit idp stack =
      (if (match tr.max_use with
           | some mu => decide ((lookupV curState visit).getD 0 ≥ mu)
           | Option.none => false) then
        procTrans g lid curState frRest cap trs visit
          (if loop_start_pair g tr.from_state tr.to_state then idp + 1 else idp) stack
      else
        match tr.cond.is_match frRest cap.captures with
        | some step =>
            match applyCapIns tr.capture_group_ins (cap.push (frRest.take step)) with
            | Option.none => Option.none
            | some cap' =>
                procTrans g lid curState frRest cap trs
                  (if tr.max_use.isSome then bumpV curState visit else visit)
                  (if loop_start_pair g tr.from_state tr.to_state then idp + 1 else idp)
                  (⟨frRest.drop step,
                    if loop_start_pair g tr.from_state tr.to_state then idp else lid,
                    tr.to_state, cap'⟩ :: stack)
        | Option.none =>
            procTrans g lid curState frRest cap trs visit
              (if loop_start_pair g tr.from_state tr.to_state then idp + 1 else idp) stack) :=
  rfl

theorem procTrans_frames (g : List Transition) (lid curState : Nat) (frRest : List Token)
    (cap : Capturer) :
    ∀ (trs : List Transition) (visit : List (Nat × Nat)) (idp : Nat) (stack : List Frame)
      (visit' : List (Nat × Nat)) (idp' : Nat) (stack' : List Frame),
      procTrans g lid curState frRest cap trs visit idp stack = some (visit', idp', stack') →
      ∀ fr' ∈ stack', fr' ∈ stack ∨
        ∃ tr ∈ trs, ∃ step : Nat,
          tr.cond.is_match frRest cap.captures = some step ∧
          fr'.rest = frRest.drop step ∧
          fr'.state = tr.to_state ∧
          applyCapIns tr.capture_group_ins (cap.push (frRest.take step)) = some fr'.cap := by
  intro trs
  induction trs with
  | nil =>
      intro visit idp stack visit' idp' stack' h fr' hfr'
      rw [procTrans_nil] at h
      simp only [Option.some.injEq, Prod.mk.injEq] at h
      obtain ⟨-, -, rfl⟩ := h
      exact Or.inl hfr'
  | cons tr trs ih =>
      intro visit idp stack visit' idp' stack' h fr' hfr'
      rw [procTrans_cons] at h
      split at h
      · rcases ih _ _ _ _ _ _ h fr' hfr' with hin | ⟨tr', htr', rest⟩
        · exact Or.inl hin
        · exact Or.inr ⟨tr', List.mem_cons_of_mem _ htr', rest⟩
      · split at h
        next step hm =>
          split at h
          · cases h
          next cap' hc =>
            rcases ih _ _ _ _ _ _ h fr' hfr' with hin | ⟨tr', htr', rest⟩
            · rcases List.mem_cons.mp hin with rfl | hin'
              · exact Or.inr ⟨tr, List.Mem.head _, step, hm, rfl, rfl, hc⟩
              · exact Or.inl hin'
            · exact Or.inr ⟨tr', List.mem_cons_of_mem _ htr', rest⟩
        next hm =>
          rcases ih _ _ _ _ _ _ h fr' hfr' with hin | ⟨tr', htr', rest⟩
          · exact Or.inl hin
          · exact Or.inr ⟨tr', List.mem_cons_of_mem _ htr', rest⟩

end PG

namespace PG

theorem innerLoop_cons_eq (g : List Transition) (n fuel : Nat) (visit : List (Nat × Nat))
    (idp : Nat) (fr : Frame) (rest : List Frame) :
    innerLoop g n (fuel + 1) visit idp (fr :: rest) =
      (if fr.state = END_STATE then some (.hit (n - fr.rest.length))
       else
        match procTrans g fr.loop_id fr.state fr.rest fr.cap
            ((get_available_transitions g fr.state).reverse) visit idp rest with
        | Option.none => some .panicked
        | some (visit', idp', stack') => innerLoop g n fuel visit' idp' stack') := rfl

theorem innerLoop_hit_bounds (g : List Transition) (n B : Nat) :
    ∀ (fuel : Nat) (visit : List (Nat × Nat)) (idp : Nat) (stack : List Frame) (e : Nat),
      (∀ fr ∈ stack, fr.rest.length ≤ B) →
      innerLoop g n fuel visit idp stack = some (.hit e) →
      n - B ≤ e ∧ e ≤ n := by
  intro fuel
  induction fuel with
  | zero => intro _ _ _ _ _ h; exact Option.noConfusion h
  | succ fuel ih =>
      intro visit idp stack e hstack h
      rcases stack with _ | ⟨fr, rest⟩
      · exact absurd h (by simp [innerLoop])
      · rw [innerLoop_cons_eq] at h
        split at h
        · have he : n - fr.rest.length = e := by
            injection h with h'
            injection h'
          refine he ▸ ⟨?_, Nat.sub_le _ _⟩
          exact Nat.sub_le_sub_left (hstack fr (List.Mem.head _)) n
        · split at h
          · exact absurd h (by simp)
          next visit' idp' stack' hproc =>
            refine ih visit' idp' stack' e ?_ h
            intro fr' hfr'
            rcases procTrans_frames g fr.loop_id fr.state fr.rest fr.cap _ _ _ _ _ _ _
                hproc fr' hfr' with hin | ⟨tr, _, step, _, hrest, _, _⟩
            · exact hstack fr' (List.mem_cons_of_mem _ hin)
            · rw [hrest, List.length_drop]
              exact Nat.le_trans (Nat.sub_le _ _) (hstack fr (List.Mem.head _))

theorem outerLoop_matched (g : List Transition) (chars : List Token) :
    ∀ (fuel offset : Nat) (acc ms : List (Nat × Nat)),
      outerLoop g chars fuel offset acc = some (.matched ms) →
      (∀ p ∈ acc, p.1 < offset ∧ p.1 ≤ p.2 ∧ p.2 ≤ chars.length) →
      List.Pairwise (fun a b : Nat × Nat => a.1 < b.1) acc →
      ms ≠ [] ∧ List.Pairwise (fun a b : Nat × Nat => a.1 < b.1) ms ∧
        ∀ p ∈ ms, p.1 ≤ p.2 ∧ p.2 ≤ chars.length := by
  intro fuel
  induction fuel with
  | zero => intro _ _ _ h; exact Option.noConfusion h
  | succ fuel ih =>
      intro offset acc ms h hacc hpw
      rw [show outerLoop g chars (fuel + 1) offset acc =
        (if offset < chars.length then
          match innerLoop g chars.length (fuel + 1) [] 1
              [⟨chars.drop offset, 0, START_STATE, Capturer.new⟩] with
          | Option.none => Option.none
          | some .panicked => some .panicked
          | some .noHit => outerLoop g chars fuel (offset + 1) acc
          | some (.hit e) =>
              outerLoop g chars fuel (max e (offset + 1)) (acc ++ [(offset, e)])
        else some (if acc.isEmpty then .noMatch else .matched acc)) from rfl] at h
      split at h
      next hoff =>
        split at h
        · exact Option.noConfusion h
        · exact absurd h (by simp)
        · refine ih (offset + 1) acc ms h ?_ hpw
          intro p hp
          exact ⟨Nat.lt_succ_of_lt (hacc p hp).1, (hacc p hp).2⟩
        next e hinner =>
          have hbounds : chars.length - (chars.length - offset) ≤ e ∧ e ≤ chars.length := by
            refine innerLoop_hit_bounds g chars.length (chars.length - offset) _ _ _ _ _
              ?_ hinner
            intro fr hfr
            rcases List.mem_singleton.mp hfr with rfl
            simp [List.length_drop]
          have hoffe : offset ≤ e := by
            have := hbounds.1
            omega
          refine ih (max e (offset + 1)) (acc ++ [(offset, e)]) ms h ?_ ?_
          · intro p hp
            rcases List.mem_append.mp hp with hp | hp
            · have := hacc p hp
              refine ⟨?_, this.2⟩
              have : p.1 < offset := this.1
              omega
            · rcases List.mem_singleton.mp hp with rfl
              refine ⟨?_, hoffe, hbounds.2⟩
              show offset < max e (offset + 1)
              omega
          · rw [List.pairwise_append]
            refine ⟨hpw, List.pairwise_singleton _ _, ?_⟩
            intro p hp q hq
            rcases List.mem_singleton.mp hq with rfl
            exact (hacc p hp).1
      next hoff =>
        rcases hacc_empty : acc.isEmpty with _ | _
        · rw [hacc_empty] at h
          simp only [Bool.false_eq_true, if_false] at h
          have hms : acc = ms := by
            injection h with h'
            injection h' with h''
          subst hms
          refine ⟨?_, hpw, fun p hp => (hacc p hp).2⟩
          intro hnil
          rw [hnil] at hacc_empty
          simp at hacc_empty
        · rw [hacc_empty] at h
          simp at h

end PG

namespace PG

/-- **C10.**  Interface invariant of `Evaluator::is_match`: whenever the
fuelled evaluator terminates with `Match { matches }`, the list is
non-empty (the code returns `NoMatch` exactly when the recorded `matches`
vector is empty — the final `if` of `is_match`, visible in the last line of
`outerLoop`), the recorded pairs have strictly increasing start indices
(each outer iteration records at most one match at the current `offset`
and then advances `offset` to `max(end, offset + 1)`), and every pair
satisfies `start ≤ end ≤ token count` (each frame's remaining stream is a
drop of the stream at `offset`). -/
theorem c10_is_match_result_invariants (fuel : Nat) (g : List Transition)
    (chars : List Token) (ms : List (Nat × Nat))
    (h : is_match fuel g chars = some (.matched ms)) :
    ms ≠ [] ∧ List.Pairwise (fun a b : Nat × Nat => a.1 < b.1) ms ∧
      ∀ p ∈ ms, p.1 ≤ p.2 ∧ p.2 ≤ chars.length :=
  outerLoop_matched g chars fuel 0 [] ms h (by simp) List.Pairwise.nil

/-- **C10** witness: the invariants instantiated at the one-edge graph for
the pattern `a` on the subject `"a"`, whose evaluation terminates with the
single match `(1, 2)`. -/
theorem c10_is_match_result_invariants_witness :
    is_match 10 [Transition.new_cond 0 1 (.char (.char 'a'))] (str_to_tokens "a") =
      some (.matched [(1, 2)]) ∧
    (([(1, 2)] : List (Nat × Nat)) ≠ [] ∧
      List.Pairwise (fun a b : Nat × Nat => a.1 < b.1) [(1, 2)] ∧
      ∀ p ∈ ([(1, 2)] : List (Nat × Nat)), p.1 ≤ p.2 ∧ p.2 ≤ (str_to_tokens "a").length) :=
  ⟨by decide,
    c10_is_match_result_invariants 10 [Transition.new_cond 0 1 (.char (.char 'a'))]
      (str_to_tokens "a") [(1, 2)] (by decide)⟩

end PG

namespace PG

theorem pm_bind_ok {α β : Type} (x : PM α) (f : α → PM β) (b : β)
    (h : (x >>= f).run = some (.ok b)) :
    ∃ a, x.run = some (.ok a) ∧ (f a).run = some (.ok b) := by
  rw [ExceptT.run_bind] at h
  rcases hx : x.run with _ | e_or_a
  · rw [hx] at h; cases h
  · rcases e_or_a with e | a
    · rw [hx] at h
      simp at h
    · rw [hx] at h
      simp at h
      exact ⟨a, rfl, h⟩

theorem pm_pure_ok {α : Type} (a b : α) (h : (pure a : PM α).run = some (.ok b)) : a = b := by
  rw [show (pure a : PM α).run = some (.ok a) from rfl] at h
  injection h with h'
  injection h'

end PG

namespace PG

theorem pm_throw_ne_ok {α : Type} (e : PErr) (b : α) :
    (throw e : PM α).run ≠ some (.ok b) := by
  intro h
  rw [show (throw e : PM α).run = some (.error e) from rfl] at h
  injection h with h'
  exact Except.noConfusion h'

theorem check_modifier_ids (node : AstNode) (s : List Char) (node' : AstNode) (s' : List Char)
    (γ : List Nat)
    (h : (check_modifier node s).run = some (.ok (node', s')))
    (hn : NodeIdsOk node γ) : NodeIdsOk node' γ := by
  unfold check_modifier at h
  split at h
  · cases pm_pure_ok _ _ h; exact .rep hn
  · cases pm_pure_ok _ _ h; exact .rep hn
  · cases pm_pure_ok _ _ h; exact .rep hn
  · obtain ⟨y, hnum, h⟩ := pm_bind_ok _ _ _ h
    obtain ⟨minv, s1⟩ := y
    simp only at h
    split at h
    · split at h
      · obtain ⟨y1, h1, h⟩ := pm_bind_ok _ _ _ h
        obtain ⟨y2, h2, h⟩ := pm_bind_ok _ _ _ h
        cases pm_pure_ok _ _ h
        exact .rep hn
      · obtain ⟨y1, h1, h⟩ := pm_bind_ok _ _ _ h
        obtain ⟨y2, h2, h⟩ := pm_bind_ok _ _ _ h
        obtain ⟨y3, h3, h⟩ := pm_bind_ok _ _ _ h
        cases pm_pure_ok _ _ h
        exact .rep hn
    · obtain ⟨y1, h1, h⟩ := pm_bind_ok _ _ _ h
      obtain ⟨y2, h2, h⟩ := pm_bind_ok _ _ _ h
      cases pm_pure_ok _ _ h
      exact .rep hn
  · cases pm_pure_ok _ _ h; exact hn
end PG

namespace PG

theorem parser_ids :
    ∀ fuel : Nat,
      (∀ (pred : List Char → Bool) (idp : Nat) (s : List Char) (items : List AstNode)
         (s' : List Char) (idp' : Nat),
         (parse_sequence fuel pred idp s).run = some (.ok (items, s', idp')) →
         idp ≤ idp' ∧ ∀ γ : List Nat, (∀ i ∈ γ, i < idp) → ∀ n ∈ items, NodeIdsOk n γ) ∧
      (∀ (idp : Nat) (s : List Char) (opts : List AstNode) (s' : List Char) (idp' : Nat),
         (parse_alt_options fuel idp s).run = some (.ok (opts, s', idp')) →
         idp ≤ idp' ∧ ∀ γ : List Nat, (∀ i ∈ γ, i < idp) → ∀ o ∈ opts, NodeIdsOk o γ) ∧
      (∀ (idp : Nat) (s : List Char) (node : AstNode) (s' : List Char) (idp' : Nat),
         (parse_unit fuel idp s).run = some (.ok (node, s', idp')) →
         idp ≤ idp' ∧ ∀ γ : List Nat, (∀ i ∈ γ, i < idp) → NodeIdsOk node γ) := by
  intro fuel
  induction fuel with
  | zero =>
      refine ⟨?_, ?_, ?_⟩
      · intro pred idp s items s' idp' h; exact Option.noConfusion h
      · intro idp s opts s' idp' h; exact Option.noConfusion h
      · intro idp s node s' idp' h; exact Option.noConfusion h
  | succ fuel ih =>
      obtain ⟨ihSeq, ihAlt, ihUnit⟩ := ih
      refine ⟨?_, ?_, ?_⟩
      · -- parse_sequence
        intro pred idp s items s' idp' h
        simp only [parse_sequence] at h
        split at h
        · cases pm_pure_ok _ _ h
          exact ⟨Nat.le_refl _, fun γ _ n hn => absurd hn (List.not_mem_nil n)⟩
        · obtain ⟨y1, hu, h⟩ := pm_bind_ok _ _ _ h
          obtain ⟨node1, s1, idp1⟩ := y1
          simp only at h
          obtain ⟨y2, hs, h⟩ := pm_bind_ok _ _ _ h
          obtain ⟨nodes, s2, idp2⟩ := y2
          simp only at h
          obtain ⟨hle1, hok1⟩ := ihUnit idp s node1 s1 idp1 hu
          obtain ⟨hle2, hok2⟩ := ihSeq pred idp1 s1 nodes s2 idp2 hs
          cases pm_pure_ok _ _ h
          refine ⟨Nat.le_trans hle1 hle2, ?_⟩
          intro γ hγ n hn
          rcases List.mem_cons.mp hn with rfl | hn'
          · exact hok1 γ hγ
          · exact hok2 γ (fun i hi => Nat.lt_of_lt_of_le (hγ i hi) hle1) n hn'
      · -- parse_alt_options
        intro idp s opts s' idp' h
        simp only [parse_alt_options] at h
        obtain ⟨y1, hseq, h⟩ := pm_bind_ok _ _ _ h
        obtain ⟨items, s1, idp1⟩ := y1
        simp only at h
        obtain ⟨hle, hok⟩ := ihSeq parenUntil idp s items s1 idp1 hseq
        split at h
        · cases pm_pure_ok _ _ h
          refine ⟨hle, ?_⟩
          intro γ hγ o ho
          rcases List.mem_singleton.mp ho with rfl
          exact .seq (hok γ hγ)
        · obtain ⟨y2, hpop, h⟩ := pm_bind_ok _ _ _ h
          obtain ⟨c2, s2⟩ := y2
          simp only at h
          obtain ⟨y3, hrec, h⟩ := pm_bind_ok _ _ _ h
          obtain ⟨rest', s3, idp3⟩ := y3
          simp only at h
          obtain ⟨hle2, hok2⟩ := ihAlt idp1 s2 rest' s3 idp3 hrec
          cases pm_pure_ok _ _ h
          refine ⟨Nat.le_trans hle hle2, ?_⟩
          intro γ hγ o ho
          rcases List.mem_cons.mp ho with rfl | ho'
          · exact .seq (hok γ hγ)
          · exact hok2 γ (fun i hi => Nat.lt_of_lt_of_le (hγ i hi) hle) o ho'
        · exact absurd h (pm_throw_ne_ok _ _)
      · -- parse_unit
        intro idp s node s' idp' h
        simp only [parse_unit] at h
        split at h
        · exact absurd h (pm_throw_ne_ok _ _)
        · -- '(' arm
          obtain ⟨y1, hp1, h⟩ := pm_bind_ok _ _ _ h
          obtain ⟨c1, s1⟩ := y1
          simp only at h
          obtain ⟨y2, halt, h⟩ := pm_bind_ok _ _ _ h
          obtain ⟨options, s2, idp2⟩ := y2
          simp only at h
          obtain ⟨y3, hp2, h⟩ := pm_bind_ok _ _ _ h
          obtain ⟨c3, s3⟩ := y3
          simp only at h
          obtain ⟨y4, hcm, h⟩ := pm_bind_ok _ _ _ h
          obtain ⟨nodeM, s4⟩ := y4
          simp only at h
          obtain ⟨hle, hok⟩ := ihAlt (idp + 1) s1 options s2 idp2 halt
          cases pm_pure_ok _ _ h
          refine ⟨Nat.le_trans (Nat.le_succ idp) hle, ?_⟩
          intro γ hγ
          refine check_modifier_ids _ _ _ _ γ hcm (.alt ?_ ?_)
          · intro hmem
            exact absurd (hγ idp hmem) (Nat.lt_irrefl idp)
          · intro o ho
            refine hok (idp :: γ) ?_ o ho
            intro i hi
            rcases List.mem_cons.mp hi with rfl | hi'
            · exact Nat.lt_succ_self _
            · exact Nat.lt_succ_of_lt (hγ i hi')
        · -- '[' arm
          split at h
          · obtain ⟨y0, hy0, h⟩ := pm_bind_ok _ _ _ h
            obtain ⟨isNeg, s1⟩ := y0
            simp only at h
            obtain ⟨y2, hcls, h⟩ := pm_bind_ok _ _ _ h
            obtain ⟨chars, s2⟩ := y2
            simp only at h
            obtain ⟨y3, hp, h⟩ := pm_bind_ok _ _ _ h
            obtain ⟨c3, s3⟩ := y3
            simp only at h
            obtain ⟨y4, hcm, h⟩ := pm_bind_ok _ _ _ h
            obtain ⟨nodeM, s4⟩ := y4
            simp only at h
            cases pm_pure_ok _ _ h
            exact ⟨Nat.le_refl _, fun γ hγ => check_modifier_ids _ _ _ _ γ hcm .charGroup⟩
          · obtain ⟨y0, hy0, h⟩ := pm_bind_ok _ _ _ h
            obtain ⟨isNeg, s1⟩ := y0
            simp only at h
            obtain ⟨y2, hcls, h⟩ := pm_bind_ok _ _ _ h
            obtain ⟨chars, s2⟩ := y2
            simp only at h
            obtain ⟨y3, hp, h⟩ := pm_bind_ok _ _ _ h
            obtain ⟨c3, s3⟩ := y3
            simp only at h
            obtain ⟨y4, hcm, h⟩ := pm_bind_ok _ _ _ h
            obtain ⟨nodeM, s4⟩ := y4
            simp only at h
            cases pm_pure_ok _ _ h
            exact ⟨Nat.le_refl _, fun γ hγ => check_modifier_ids _ _ _ _ γ hcm .charGroup⟩
        · -- '^' arm
          obtain ⟨y1, hcm, h⟩ := pm_bind_ok _ _ _ h
          obtain ⟨nodeM, s1⟩ := y1
          simp only at h
          cases pm_pure_ok _ _ h
          exact ⟨Nat.le_refl _, fun γ hγ => check_modifier_ids _ _ _ _ γ hcm .start⟩
        · -- '$' arm
          obtain ⟨y1, hcm, h⟩ := pm_bind_ok _ _ _ h
          obtain ⟨nodeM, s1⟩ := y1
          simp only at h
          cases pm_pure_ok _ _ h
          exact ⟨Nat.le_refl _, fun γ hγ => check_modifier_ids _ _ _ _ γ hcm .stop⟩
        · -- '.' arm
          obtain ⟨y1, hcm, h⟩ := pm_bind_ok _ _ _ h
          obtain ⟨nodeM, s1⟩ := y1
          simp only at h
          cases pm_pure_ok _ _ h
          exact ⟨Nat.le_refl _, fun γ hγ => check_modifier_ids _ _ _ _ γ hcm .anyChar⟩
        · -- backslash arm
          split at h
          · exact absurd h (pm_throw_ne_ok _ _)
          · split at h
            · obtain ⟨y1, hcm, h⟩ := pm_bind_ok _ _ _ h
              obtain ⟨nodeM, s1⟩ := y1
              simp only at h
              cases pm_pure_ok _ _ h
              exact ⟨Nat.le_refl _, fun γ hγ => check_modifier_ids _ _ _ _ γ hcm .char⟩
            · split at h
              · obtain ⟨y1, hcm, h⟩ := pm_bind_ok _ _ _ h
                obtain ⟨nodeM, s1⟩ := y1
                simp only at h
                cases pm_pure_ok _ _ h
                exact ⟨Nat.le_refl _, fun γ hγ => check_modifier_ids _ _ _ _ γ hcm .char⟩
              · split at h
                · split at h
                  · exact absurd h (pm_throw_ne_ok _ _)
                  · obtain ⟨y1, hcm, h⟩ := pm_bind_ok _ _ _ h
                    obtain ⟨nodeM, s1⟩ := y1
                    simp only at h
                    cases pm_pure_ok _ _ h
                    exact ⟨Nat.le_refl _,
                      fun γ hγ => check_modifier_ids _ _ _ _ γ hcm .captureRef⟩
                · obtain ⟨y1, hcm, h⟩ := pm_bind_ok _ _ _ h
                  obtain ⟨nodeM, s1⟩ := y1
                  simp only at h
                  cases pm_pure_ok _ _ h
                  exact ⟨Nat.le_refl _, fun γ hγ => check_modifier_ids _ _ _ _ γ hcm .char⟩
        · -- other char arm
          obtain ⟨y1, hcm, h⟩ := pm_bind_ok _ _ _ h
          obtain ⟨nodeM, s1⟩ := y1
          simp only at h
          cases pm_pure_ok _ _ h
          exact ⟨Nat.le_refl _, fun γ hγ => check_modifier_ids _ _ _ _ γ hcm .char⟩

end PG

namespace PG

theorem updCtx_same (ctx : Nat → List Nat) (x : Nat) (v : List Nat) : updCtx ctx x v x = v := by
  simp [updCtx]

theorem updCtx_ne (ctx : Nat → List Nat) (x : Nat) (v : List Nat) (y : Nat) (h : y ≠ x) :
    updCtx ctx x v y = ctx y := by
  simp [updCtx, h]

theorem edge_none_conclusion (idp s e : Nat) (c : Cond) (m : Option Nat) (γ : List Nat)
    (ctx : Nat → List Nat) (hs : s < idp) (he : e < idp) (hcs : ctx s = γ) (hce : ctx e = γ) :
    idp ≤ idp ∧
    (∀ tr ∈ [Transition.new_full s e c m .none],
      tr.from_state < idp ∧ tr.to_state < idp) ∧
    ∃ ctx' : Nat → List Nat, (∀ x, x < idp → ctx' x = ctx x) ∧
      (∀ tr ∈ [Transition.new_full s e c m .none],
        capStep tr.capture_group_ins (ctx' tr.from_state) = some (ctx' tr.to_state)) := by
  refine ⟨Nat.le_refl _, ?_, ctx, fun x _ => rfl, ?_⟩
  · intro tr htr
    rcases List.mem_singleton.mp htr with rfl
    exact ⟨hs, he⟩
  · intro tr htr
    rcases List.mem_singleton.mp htr with rfl
    show capStep .none (ctx s) = some (ctx e)
    rw [hcs, hce]
    rfl

end PG

namespace PG

theorem labels_append (B1 B2 : Nat) (ts1 ts2 : List Transition) (ctx1 ctx2 : Nat → List Nat)
    (hB : B1 ≤ B2)
    (hend1 : ∀ tr ∈ ts1, tr.from_state < B1 ∧ tr.to_state < B1)
    (hend2 : ∀ tr ∈ ts2, tr.from_state < B2 ∧ tr.to_state < B2)
    (hagree : ∀ x, x < B1 → ctx2 x = ctx1 x)
    (hlab1 : ∀ tr ∈ ts1,
      capStep tr.capture_group_ins (ctx1 tr.from_state) = some (ctx1 tr.to_state))
    (hlab2 : ∀ tr ∈ ts2,
      capStep tr.capture_group_ins (ctx2 tr.from_state) = some (ctx2 tr.to_state)) :
    (∀ tr ∈ ts1 ++ ts2, tr.from_state < B2 ∧ tr.to_state < B2) ∧
    (∀ tr ∈ ts1 ++ ts2,
      capStep tr.capture_group_ins (ctx2 tr.from_state) = some (ctx2 tr.to_state)) := by
  constructor <;> intro tr htr <;> rcases List.mem_append.mp htr with h1 | h2
  · exact ⟨Nat.lt_of_lt_of_le (hend1 tr h1).1 hB, Nat.lt_of_lt_of_le (hend1 tr h1).2 hB⟩
  · exact hend2 tr h2
  · rw [hagree _ (hend1 tr h1).1, hagree _ (hend1 tr h1).2]
    exact hlab1 tr h1
  · exact hlab2 tr h2

theorem gen_labels :
    ∀ fuel : Nat,
      (∀ (node : AstNode) (idp s e : Nat) (ts : List Transition) (idp' : Nat),
        (gen fuel node idp s e).run = some (.ok (ts, idp')) →
        ∀ (γ : List Nat) (ctx : Nat → List Nat),
          s < idp → e < idp → ctx s = γ → ctx e = γ → NodeIdsOk node γ →
          idp ≤ idp' ∧
          (∀ tr ∈ ts, tr.from_state < idp' ∧ tr.to_state < idp') ∧
          ∃ ctx' : Nat → List Nat,
            (∀ x, x < idp → ctx' x = ctx x) ∧
            (∀ tr ∈ ts,
              capStep tr.capture_group_ins (ctx' tr.from_state) = some (ctx' tr.to_state))) ∧
      (∀ (items : List AstNode) (idp from_id e : Nat) (ts : List Transition) (idp' : Nat),
        (genSeqItems fuel items idp from_id e).run = some (.ok (ts, idp')) →
        ∀ (γ : List Nat) (ctx : Nat → List Nat),
          from_id < idp → e < idp → ctx from_id = γ → ctx e = γ →
          (∀ i ∈ items, NodeIdsOk i γ) →
          idp ≤ idp' ∧
          (∀ tr ∈ ts, tr.from_state < idp' ∧ tr.to_state < idp') ∧
          ∃ ctx' : Nat → List Nat,
            (∀ x, x < idp → ctx' x = ctx x) ∧
            (∀ tr ∈ ts,
              capStep tr.capture_group_ins (ctx' tr.from_state) = some (ctx' tr.to_state))) ∧
      (∀ (options : List AstNode) (idp is0 ie0 : Nat) (ts : List Transition) (idp' : Nat),
        (genAltOptions fuel options idp is0 ie0).run = some (.ok (ts, idp')) →
        ∀ (γ : List Nat) (ctx : Nat → List Nat),
          is0 < idp → ie0 < idp → ctx is0 = γ → ctx ie0 = γ →
          (∀ o ∈ options, NodeIdsOk o γ) →
          idp ≤ idp' ∧
          (∀ tr ∈ ts, tr.from_state < idp' ∧ tr.to_state < idp') ∧
          ∃ ctx' : Nat → List Nat,
            (∀ x, x < idp → ctx' x = ctx x) ∧
            (∀ tr ∈ ts,
              capStep tr.capture_group_ins (ctx' tr.from_state) = some (ctx' tr.to_state))) ∧
      (∀ (k : Nat) (child : AstNode) (idp is0 ie0 : Nat) (ts : List Transition)
         (idp' is1 ie1 : Nat),
        (genRepUnroll fuel k child idp is0 ie0).run = some (.ok (ts, idp', is1, ie1)) →
        ∀ (γ : List Nat) (ctx : Nat → List Nat),
          is0 < idp → ie0 < idp → ctx is0 = γ → ctx ie0 = γ → NodeIdsOk child γ →
          idp ≤ idp' ∧ is1 < idp' ∧ ie1 < idp' ∧
          (∀ tr ∈ ts, tr.from_state < idp' ∧ tr.to_state < idp') ∧
          ∃ ctx' : Nat → List Nat,
            (∀ x, x < idp → ctx' x = ctx x) ∧ ctx' is1 = γ ∧ ctx' ie1 = γ ∧
            (∀ tr ∈ ts,
              capStep tr.capture_group_ins (ctx' tr.from_state) = some (ctx' tr.to_state))) := by
  intro fuel
  induction fuel with
  | zero =>
      refine ⟨?_, ?_, ?_, ?_⟩
      · intro node idp s e ts idp' h; exact Option.noConfusion h
      · intro items idp f e ts idp' h; exact Option.noConfusion h
      · intro options idp a b ts idp' h; exact Option.noConfusion h
      · intro k child idp a b ts idp' i1 i2 h; exact Option.noConfusion h
  | succ fuel ih =>
      obtain ⟨ihGen, ihSeq, ihAlt, ihUnroll⟩ := ih
      refine ⟨?_, ?_, ?_, ?_⟩
      · -- gen
        intro node idp s e ts idp' h γ ctx hs he hcs hce hids
        cases node with
        | root inner =>
            simp only [gen] at h
            cases hids with
            | root hinner => exact ihGen inner idp s e ts idp' h γ ctx hs he hcs hce hinner
        | char l =>
            simp only [gen] at h
            cases pm_pure_ok _ _ h
            exact edge_none_conclusion idp s e _ _ γ ctx hs he hcs hce
        | start =>
            simp only [gen] at h
            cases pm_pure_ok _ _ h
            exact edge_none_conclusion idp s e _ _ γ ctx hs he hcs hce
        | stop =>
            simp only [gen] at h
            cases pm_pure_ok _ _ h
            exact edge_none_conclusion idp s e _ _ γ ctx hs he hcs hce
        | anyChar =>
            simp only [gen] at h
            cases pm_pure_ok _ _ h
            exact edge_none_conclusion idp s e _ _ γ ctx hs he hcs hce
        | charGroup neg chars =>
            simp only [gen] at h
            cases pm_pure_ok _ _ h
            exact edge_none_conclusion idp s e _ _ γ ctx hs he hcs hce
        | captureRef id =>
            simp only [gen] at h
            cases pm_pure_ok _ _ h
            exact edge_none_conclusion idp s e _ _ γ ctx hs he hcs hce
        | seq items =>
            simp only [gen] at h
            cases hids with
            | seq hitems =>
              split at h
              · cases pm_pure_ok _ _ h
                exact edge_none_conclusion idp s e _ _ γ ctx hs he hcs hce
              next item rest =>
                exact ihSeq (item :: rest) idp s e ts idp' h γ ctx hs he hcs hce hitems
        | alt options id =>
            simp only [gen] at h
            obtain ⟨y1, halt, h⟩ := pm_bind_ok _ _ _ h
            obtain ⟨tsm, idp1⟩ := y1
            simp only at h
            cases hids with
            | alt hid hopts =>
              have hrec := ihAlt options (idp + 2) idp (idp + 1) tsm idp1 halt (id :: γ)
                (updCtx (updCtx ctx idp (id :: γ)) (idp + 1) (id :: γ))
                (by omega) (by omega)
                (by rw [updCtx_ne _ _ _ _ (by omega), updCtx_same])
                (by rw [updCtx_same]) hopts
              obtain ⟨hle, hend, ctx1, hagree, hlab⟩ := hrec
              have hctx1s : ctx1 s = γ := by
                rw [hagree s (by omega), updCtx_ne _ _ _ _ (by omega),
                  updCtx_ne _ _ _ _ (by omega), hcs]
              have hctx1e : ctx1 e = γ := by
                rw [hagree e (by omega), updCtx_ne _ _ _ _ (by omega),
                  updCtx_ne _ _ _ _ (by omega), hce]
              have hctx1i : ctx1 idp = id :: γ := by
                rw [hagree idp (by omega), updCtx_ne _ _ _ _ (by omega), updCtx_same]
              have hctx1i1 : ctx1 (idp + 1) = id :: γ := by
                rw [hagree (idp + 1) (by omega), updCtx_same]
              cases pm_pure_ok _ _ h
              refine ⟨by omega, ?_, ctx1, ?_, ?_⟩
              · intro tr htr
                simp only [List.mem_append, List.mem_singleton] at htr
                rcases htr with (rfl | htsm) | rfl
                · exact ⟨by simp only [Transition.new_full, Transition.new, Transition.new_cond]; omega, by simp only [Transition.new_full, Transition.new, Transition.new_cond]; omega⟩
                · have := hend tr htsm
                  exact ⟨by omega, by omega⟩
                · exact ⟨by simp only [Transition.new_full, Transition.new, Transition.new_cond]; omega, by simp only [Transition.new_full, Transition.new, Transition.new_cond]; omega⟩
              · intro x hx
                rw [hagree x (by omega), updCtx_ne _ _ _ _ (by omega),
                  updCtx_ne _ _ _ _ (by omega)]
              · intro tr htr
                simp only [List.mem_append, List.mem_singleton] at htr
                rcases htr with (rfl | htsm) | rfl
                · show capStep (.start id) (ctx1 s) = some (ctx1 idp)
                  rw [hctx1s, hctx1i]
                  show (if γ.contains id then Option.none else some (id :: γ)) = some (id :: γ)
                  rw [if_neg (by simpa using hid)]
                · exact hlab tr htsm
                · show capStep (.stop id) (ctx1 (idp + 1)) = some (ctx1 e)
                  rw [hctx1i1, hctx1e]
                  show (if id = id then some γ else Option.none) = some γ
                  rw [if_pos rfl]
        | rep mn mx child =>
            simp only [gen] at h
            cases hids with
            | rep hchild =>
              split at h
              · cases pm_pure_ok _ _ h
                exact edge_none_conclusion idp s e _ _ γ ctx hs he hcs hce
              · split at h
                · exact absurd h (pm_throw_ne_ok _ _)
                · obtain ⟨y1, hunroll, h⟩ := pm_bind_ok _ _ _ h
                  obtain ⟨unrolled, idp1, is1, ie1⟩ := y1
                  simp only at h
                  obtain ⟨y2, hbody, h⟩ := pm_bind_ok _ _ _ h
                  obtain ⟨body, idp2⟩ := y2
                  simp only at h
                  have hrec1 := ihUnroll _ child (idp + 2) idp (idp + 1) unrolled idp1 is1 ie1
                    hunroll γ (updCtx (updCtx ctx idp γ) (idp + 1) γ)
                    (by omega) (by omega)
                    (by rw [updCtx_ne _ _ _ _ (by omega), updCtx_same])
                    (by rw [updCtx_same]) hchild
                  obtain ⟨hle1, his1, hie1, hend1, ctx1, hagree1, hcis1, hcie1, hlab1⟩ := hrec1
                  have hrec2 := ihGen child idp1 is1 ie1 body idp2 hbody γ ctx1
                    his1 hie1 hcis1 hcie1 hchild
                  obtain ⟨hle2, hend2, ctx2, hagree2, hlab2⟩ := hrec2
                  have hc2base : ∀ x, x < idp + 2 →
                      ctx2 x = updCtx (updCtx ctx idp γ) (idp + 1) γ x := by
                    intro x hx
                    rw [hagree2 x (by omega), hagree1 x hx]
                  have hc2s : ctx2 s = γ := by
                    rw [hc2base s (by omega), updCtx_ne _ _ _ _ (by omega),
                      updCtx_ne _ _ _ _ (by omega), hcs]
                  have hc2e : ctx2 e = γ := by
                    rw [hc2base e (by omega), updCtx_ne _ _ _ _ (by omega),
                      updCtx_ne _ _ _ _ (by omega), hce]
                  have hc2i : ctx2 idp = γ := by
                    rw [hc2base idp (by omega), updCtx_ne _ _ _ _ (by omega), updCtx_same]
                  have hc2is1 : ctx2 is1 = γ := by rw [hagree2 is1 his1, hcis1]
                  have hc2ie1 : ctx2 ie1 = γ := by rw [hagree2 ie1 hie1, hcie1]
                  cases pm_pure_ok _ _ h
                  refine ⟨by omega, ?_, ctx2, ?_, ?_⟩
                  · intro tr htr
                    simp only [List.mem_append, List.mem_singleton] at htr
                    rcases htr with ((((rfl | hite) | hunr) | rfl) | hbod) | rfl
                    · exact ⟨by simp only [Transition.new_full, Transition.new, Transition.new_cond]; omega, by simp only [Transition.new_full, Transition.new, Transition.new_cond]; omega⟩
                    · by_cases h0 : mn.getD 0 = 0
                      · rw [if_pos h0] at hite
                        rcases List.mem_singleton.mp hite with rfl
                        exact ⟨by simp only [Transition.new_full, Transition.new, Transition.new_cond]; omega, by simp only [Transition.new_full, Transition.new, Transition.new_cond]; omega⟩
                      · rw [if_neg h0] at hite
                        cases hite
                    · have := hend1 tr hunr
                      exact ⟨by omega, by omega⟩
                    · exact ⟨by simp only [Transition.new_full, Transition.new, Transition.new_cond]; omega, by simp only [Transition.new_full, Transition.new, Transition.new_cond]; omega⟩
                    · exact hend2 tr hbod
                    · exact ⟨by simp only [Transition.new_full, Transition.new, Transition.new_cond]; omega, by simp only [Transition.new_full, Transition.new, Transition.new_cond]; omega⟩
                  · intro x hx
                    rw [hc2base x (by omega), updCtx_ne _ _ _ _ (by omega),
                      updCtx_ne _ _ _ _ (by omega)]
                  · intro tr htr
                    simp only [List.mem_append, List.mem_singleton] at htr
                    rcases htr with ((((rfl | hite) | hunr) | rfl) | hbod) | rfl
                    · show capStep .none (ctx2 s) = some (ctx2 idp)
                      rw [hc2s, hc2i]
                      rfl
                    · by_cases h0 : mn.getD 0 = 0
                      · rw [if_pos h0] at hite
                        rcases List.mem_singleton.mp hite with rfl
                        show capStep .none (ctx2 s) = some (ctx2 e)
                        rw [hc2s, hc2e]
                        rfl
                      · rw [if_neg h0] at hite
                        cases hite
                    · rw [hagree2 _ (hend1 tr hunr).1, hagree2 _ (hend1 tr hunr).2]
                      exact hlab1 tr hunr
                    · show capStep .none (ctx2 ie1) = some (ctx2 is1)
                      rw [hc2ie1, hc2is1]
                      rfl
                    · exact hlab2 tr hbod
                    · show capStep .none (ctx2 ie1) = some (ctx2 e)
                      rw [hc2ie1, hc2e]
                      rfl
      · -- genSeqItems
        intro items idp from_id e ts idp' h γ ctx hf he hcf hce hitems
        simp only [genSeqItems] at h
        split at h
        · cases pm_pure_ok _ _ h
          exact ⟨Nat.le_refl _, fun tr htr => absurd htr (List.not_mem_nil tr),
            ctx, fun x _ => rfl, fun tr htr => absurd htr (List.not_mem_nil tr)⟩
        next item =>
          exact ihGen item idp from_id e ts idp' h γ ctx hf he hcf hce
            (hitems item (List.mem_singleton.mpr rfl))
        next item nxt rest =>
          obtain ⟨y1, hg, h⟩ := pm_bind_ok _ _ _ h
          obtain ⟨ts1, idp1⟩ := y1
          simp only at h
          obtain ⟨y2, hrest, h⟩ := pm_bind_ok _ _ _ h
          obtain ⟨ts2, idp2⟩ := y2
          simp only at h
          have hrec1 := ihGen item (idp + 1) from_id idp ts1 idp1 hg γ (updCtx ctx idp γ)
            (by omega) (by omega)
            (by rw [updCtx_ne _ _ _ _ (by omega)]; exact hcf) (updCtx_same _ _ _)
            (hitems item (List.mem_cons_self _ _))
          obtain ⟨hle1, hend1, ctx1, hagree1, hlab1⟩ := hrec1
          have hctx1i : ctx1 idp = γ := by rw [hagree1 idp (by omega), updCtx_same]
          have hctx1e : ctx1 e = γ := by
            rw [hagree1 e (by omega), updCtx_ne _ _ _ _ (by omega)]
            exact hce
          have hrec2 := ihSeq (nxt :: rest) idp1 idp e ts2 idp2 hrest γ ctx1
            (by omega) (by omega) hctx1i hctx1e
            (fun i hi => hitems i (List.mem_cons_of_mem _ hi))
          obtain ⟨hle2, hend2, ctx2, hagree2, hlab2⟩ := hrec2
          have hAB := labels_append idp1 idp2 ts1 ts2 ctx1 ctx2 hle2 hend1 hend2 hagree2
            hlab1 hlab2
          cases pm_pure_ok _ _ h
          refine ⟨by omega, hAB.1, ctx2, ?_, hAB.2⟩
          intro x hx
          rw [hagree2 x (by omega), hagree1 x (by omega), updCtx_ne _ _ _ _ (by omega)]
      · -- genAltOptions
        intro options idp is0 ie0 ts idp' h γ ctx his hie hcis hcie hopts
        simp only [genAltOptions] at h
        split at h
        · cases pm_pure_ok _ _ h
          exact ⟨Nat.le_refl _, fun tr htr => absurd htr (List.not_mem_nil tr),
            ctx, fun x _ => rfl, fun tr htr => absurd htr (List.not_mem_nil tr)⟩
        next o rest =>
          obtain ⟨y1, hg, h⟩ := pm_bind_ok _ _ _ h
          obtain ⟨ts1, idp1⟩ := y1
          simp only at h
          obtain ⟨y2, hrest, h⟩ := pm_bind_ok _ _ _ h
          obtain ⟨ts2, idp2⟩ := y2
          simp only at h
          have hrec1 := ihGen o idp is0 ie0 ts1 idp1 hg γ ctx his hie hcis hcie
            (hopts o (List.mem_cons_self _ _))
          obtain ⟨hle1, hend1, ctx1, hagree1, hlab1⟩ := hrec1
          have hctx1s : ctx1 is0 = γ := by rw [hagree1 is0 (by omega)]; exact hcis
          have hctx1e : ctx1 ie0 = γ := by rw [hagree1 ie0 (by omega)]; exact hcie
          have hrec2 := ihAlt rest idp1 is0 ie0 ts2 idp2 hrest γ ctx1
            (by omega) (by omega) hctx1s hctx1e
            (fun i hi => hopts i (List.mem_cons_of_mem _ hi))
          obtain ⟨hle2, hend2, ctx2, hagree2, hlab2⟩ := hrec2
          have hAB := labels_append idp1 idp2 ts1 ts2 ctx1 ctx2 hle2 hend1 hend2 hagree2
            hlab1 hlab2
          cases pm_pure_ok _ _ h
          refine ⟨by omega, hAB.1, ctx2, ?_, hAB.2⟩
          intro x hx
          rw [hagree2 x (by omega), hagree1 x (by omega)]
      · -- genRepUnroll
        intro k child idp is0 ie0 ts idp' is1 ie1 h γ ctx his hie hcis hcie hchild
        simp only [genRepUnroll] at h
        split at h
        · cases pm_pure_ok _ _ h
          exact ⟨Nat.le_refl _, his, hie, fun tr htr => absurd htr (List.not_mem_nil tr),
            ctx, fun x _ => rfl, hcis, hcie, fun tr htr => absurd htr (List.not_mem_nil tr)⟩
        next k' =>
          obtain ⟨y1, hg, h⟩ := pm_bind_ok _ _ _ h
          obtain ⟨ts1, idpA⟩ := y1
          simp only at h
          obtain ⟨y2, hrest, h⟩ := pm_bind_ok _ _ _ h
          obtain ⟨ts2, idpB, isB, ieB⟩ := y2
          simp only at h
          have hrec1 := ihGen child idp is0 ie0 ts1 idpA hg γ ctx his hie hcis hcie hchild
          obtain ⟨hle1, hend1, ctx1, hagree1, hlab1⟩ := hrec1
          have hrec2 := ihUnroll k' child (idpA + 1) ie0 idpA ts2 idpB isB ieB hrest γ
            (updCtx ctx1 idpA γ)
            (by omega) (by omega)
            (by
              rw [updCtx_ne _ _ _ _ (by omega), hagree1 ie0 (by omega)]
              exact hcie)
            (updCtx_same _ _ _) hchild
          obtain ⟨hle2, hisB, hieB, hend2, ctx2, hagree2, hcisB, hcieB, hlab2⟩ := hrec2
          have hagree' : ∀ x, x < idpA → ctx2 x = ctx1 x := by
            intro x hx
            rw [hagree2 x (by omega), updCtx_ne _ _ _ _ (by omega)]
          have hAB := labels_append idpA idpB ts1 ts2 ctx1 ctx2 (by omega) hend1 hend2
            hagree' hlab1 hlab2
          cases pm_pure_ok _ _ h
          refine ⟨by omega, hisB, hieB, hAB.1, ctx2, ?_, hcisB, hcieB, hAB.2⟩
          intro x hx
          rw [hagree' x (by omega), hagree1 x (by omega)]

end PG

namespace PG

theorem push_currents (toks : List Token) :
    ∀ cap : Capturer, (cap.push toks).currents = cap.currents := by
  induction toks with
  | nil => intro cap; rfl
  | cons t ts ih =>
      intro cap
      cases t with
      | char c => exact ih _
      | start => exact ih cap
      | stop => exact ih cap

theorem applyCapIns_currents (ins : CaptureGroupInstruction) (cap cap' : Capturer)
    (h : applyCapIns ins cap = some cap') : capStep ins cap.currents = some cap'.currents := by
  obtain ⟨caps, curs⟩ := cap
  cases ins with
  | none =>
      injection h with h'
      subst h'
      rfl
  | start id =>
      by_cases hc : id ∈ curs
      · simp [applyCapIns, Capturer.start_capture, hc] at h
      · simp [applyCapIns, Capturer.start_capture, hc] at h
        subst h
        simp [capStep, hc]
  | stop id =>
      cases curs with
      | nil => simp [applyCapIns, Capturer.end_capture] at h
      | cons top rest =>
          by_cases hid : id = top
          · simp [applyCapIns, Capturer.end_capture, hid] at h
            subst h
            simp [capStep, hid]
          · simp [applyCapIns, Capturer.end_capture, hid] at h

theorem applyCapIns_of_capStep (ins : CaptureGroupInstruction) (cap : Capturer)
    (st' : List Nat) (h : capStep ins cap.currents = some st') :
    ∃ cap', applyCapIns ins cap = some cap' ∧ cap'.currents = st' := by
  obtain ⟨caps, curs⟩ := cap
  cases ins with
  | none =>
      injection h with h'
      exact ⟨⟨caps, curs⟩, rfl, h'⟩
  | start id =>
      by_cases hc : id ∈ curs
      · simp [capStep, hc] at h
      · simp [capStep, hc] at h
        exact ⟨⟨insertA id [] caps, id :: curs⟩, by simp [applyCapIns, Capturer.start_capture, hc],
          by simp [h]⟩
  | stop id =>
      cases curs with
      | nil => simp [capStep] at h
      | cons top rest =>
          by_cases hid : id = top
          · simp [capStep, hid] at h
            exact ⟨⟨caps, rest⟩, by simp [applyCapIns, Capturer.end_capture, hid], by simp [h]⟩
          · simp [capStep, hid] at h

theorem avail_mem (g : List Transition) (state : Nat) :
    ∀ tr ∈ (get_available_transitions g state).reverse, tr ∈ g ∧ tr.from_state = state := by
  intro tr htr
  rw [List.mem_reverse] at htr
  unfold get_available_transitions at htr
  have hmf := List.mem_filter.mp htr
  exact ⟨hmf.1, by simpa using hmf.2⟩

end PG

namespace PG

theorem procTrans_ctx (g : List Transition) (ctx : Nat → List Nat) (hg : CapLabeled g ctx)
    (lid curState : Nat) (frRest : List Token) (cap : Capturer)
    (hcap : cap.currents = ctx curState) :
    ∀ trs : List Transition, (∀ tr ∈ trs, tr ∈ g ∧ tr.from_state = curState) →
    ∀ (visit : List (Nat × Nat)) (idp : Nat) (stack : List Frame),
      (∀ fr ∈ stack, fr.cap.currents = ctx fr.state) →
      ∃ out, procTrans g lid curState frRest cap trs visit idp stack = some out ∧
        ∀ fr ∈ out.2.2, fr.cap.currents = ctx fr.state := by
  intro trs
  induction trs with
  | nil =>
      intro _ visit idp stack hstack
      exact ⟨(visit, idp, stack), procTrans_nil g lid curState frRest cap visit idp stack, hstack⟩
  | cons tr trs ih =>
      intro htrs visit idp stack hstack
      have htr := htrs tr (List.Mem.head _)
      have htrs' : ∀ t ∈ trs, t ∈ g ∧ t.from_state = curState :=
        fun t ht => htrs t (List.mem_cons_of_mem _ ht)
      rw [procTrans_cons]
      split
      · exact ih htrs' _ _ stack hstack
      · split
        next step hm =>
          have hcs : capStep tr.capture_group_ins (cap.push (frRest.take step)).currents =
              some (ctx tr.to_state) := by
            rw [push_currents, hcap, ← htr.2]
            exact hg tr htr.1
          obtain ⟨cap', hap, hcur⟩ := applyCapIns_of_capStep _ _ _ hcs
          rw [hap]
          have hstack' : ∀ fr ∈ (⟨frRest.drop step,
              if loop_start_pair g tr.from_state tr.to_state then idp else lid,
              tr.to_state, cap'⟩ : Frame) :: stack, fr.cap.currents = ctx fr.state := by
            intro fr hfr
            rcases List.mem_cons.mp hfr with rfl | hfr'
            · exact hcur
            · exact hstack fr hfr'
          obtain ⟨out, hout, hinv⟩ := ih htrs'
            (if tr.max_use.isSome then bumpV curState visit else visit)
            (if loop_start_pair g tr.from_state tr.to_state then idp + 1 else idp)
            (⟨frRest.drop step,
              if loop_start_pair g tr.from_state tr.to_state then idp else lid,
              tr.to_state, cap'⟩ :: stack) hstack'
          exact ⟨out, hout, hinv⟩
        next hm => exact ih htrs' _ _ stack hstack

theorem innerLoop_no_panic (g : List Transition) (ctx : Nat → List Nat) (hg : CapLabeled g ctx)
    (n : Nat) :
    ∀ (fuel : Nat) (visit : List (Nat × Nat)) (idp : Nat) (stack : List Frame),
      (∀ fr ∈ stack, fr.cap.currents = ctx fr.state) →
      innerLoop g n fuel visit idp stack ≠ some .panicked := by
  intro fuel
  induction fuel with
  | zero =>
      intro _ _ _ _ hc
      exact Option.noConfusion hc
  | succ fuel ih =>
      intro visit idp stack hstack
      rcases stack with _ | ⟨fr, rest⟩
      · simp [innerLoop]
      · rw [innerLoop_cons_eq]
        split
        · simp
        next hne =>
          have hrest : ∀ f ∈ rest, f.cap.currents = ctx f.state :=
            fun f hf => hstack f (List.mem_cons_of_mem _ hf)
          obtain ⟨out, hproc, hout⟩ := procTrans_ctx g ctx hg fr.loop_id fr.state fr.rest fr.cap
            (hstack fr (List.Mem.head _)) _ (avail_mem g fr.state) visit idp rest hrest
          rw [hproc]
          obtain ⟨v', i', s'⟩ := out
          exact ih v' i' s' hout

theorem outerLoop_succ_eq (g : List Transition) (chars : List Token) (fuel offset : Nat)
    (acc : List (Nat × Nat)) :
    outerLoop g chars (fuel + 1) offset acc =
      (if offset < chars.length then
        match innerLoop g chars.length (fuel + 1) [] 1
            [⟨chars.drop offset, 0, START_STATE, Capturer.new⟩] with
        | Option.none => Option.none
        | some .panicked => some .panicked
        | some .noHit => outerLoop g chars fuel (offset + 1) acc
        | some (.hit e) =>
            outerLoop g chars fuel (max e (offset + 1)) (acc ++ [(offset, e)])
      else
        some (if acc.isEmpty then .noMatch else .matched acc)) := rfl

theorem outerLoop_no_panic (g : List Transition) (ctx : Nat → List Nat) (hg : CapLabeled g ctx)
    (h0 : ctx START_STATE = []) (chars : List Token) :
    ∀ (fuel offset : Nat) (acc : List (Nat × Nat)),
      outerLoop g chars fuel offset acc ≠ some .panicked := by
  intro fuel
  induction fuel with
  | zero =>
      intro _ _ hc
      exact Option.noConfusion hc
  | succ fuel ih =>
      intro offset acc
      rw [outerLoop_succ_eq]
      split
      · have hinit : ∀ fr ∈ [(⟨chars.drop offset, 0, START_STATE, Capturer.new⟩ : Frame)],
            fr.cap.currents = ctx fr.state := by
          intro fr hfr
          rw [List.mem_singleton] at hfr
          subst hfr
          exact h0.symm
        split
        · simp
        next heq => exact absurd heq (innerLoop_no_panic g ctx hg _ _ _ _ _ hinit)
        next => exact ih _ _
        next => exact ih _ _
      · split <;> simp

theorem innerReach_inv (g : List Transition) (ctx : Nat → List Nat) (hg : CapLabeled g ctx)
    (σ₀ σ : List (Nat × Nat) × Nat × List Frame)
    (h0 : ∀ fr ∈ σ₀.2.2, fr.cap.currents = ctx fr.state)
    (hr : InnerReach g σ₀ σ) :
    ∀ fr ∈ σ.2.2, fr.cap.currents = ctx fr.state := by
  induction hr with
  | refl => exact h0
  | @step visit idp fr rest σ' hreach hne hproc ih =>
      obtain ⟨v', i', s'⟩ := σ'
      intro fr' hfr'
      rcases procTrans_frames g fr.loop_id fr.state fr.rest fr.cap _ _ _ _ _ _ _
          hproc fr' hfr' with hin | ⟨tr, htr, step, hm, hrest, hstate, hcap⟩
      · exact ih fr' (List.mem_cons_of_mem _ hin)
      · have htr' := avail_mem g fr.state tr htr
        have hfrc := ih fr (List.Mem.head _)
        have hthis := applyCapIns_currents _ _ _ hcap
        rw [push_currents, hfrc, ← htr'.2, hg tr htr'.1] at hthis
        injection hthis with h'
        rw [hstate, ← h']

end PG

namespace PG

theorem pm_map_ok {α β : Type} (x : PM α) (f : α → β) (b : β)
    (h : (x.map f).run = some (Except.ok b)) :
    ∃ a, x.run = some (Except.ok a) ∧ f a = b := by
  simp only [ExceptT.map, ExceptT.run_mk] at h
  rcases hx : x.run with _ | v
  · unfold ExceptT.run at hx
    rw [hx] at h
    cases h
  · unfold ExceptT.run at hx
    rw [hx] at h
    rcases v with e | a
    · simp at h
    · simp at h
      exact ⟨a, rfl, h⟩

theorem parse_ids_ok (fuel : Nat) (s : String) (ast : AstNode)
    (h : (parse_regex_str fuel s).run = some (.ok ast)) : NodeIdsOk ast [] := by
  unfold parse_regex_str parse at h
  obtain ⟨y, hseq, h⟩ := pm_bind_ok _ _ _ h
  obtain ⟨items, s', idp'⟩ := y
  simp only at h
  cases pm_pure_ok _ _ h
  have hids := ((parser_ids fuel).1 _ 1 _ items s' idp' hseq).2 []
    (by intro i hi; cases hi)
  exact .root (.seq hids)

theorem generated_graph_labeled (fuel : Nat) (ast : AstNode) (g : List Transition)
    (hids : NodeIdsOk ast [])
    (h : (generate fuel ast).run = some (.ok g)) :
    ∃ ctx : Nat → List Nat, CapLabeled g ctx ∧ ctx START_STATE = [] ∧ ctx END_STATE = [] := by
  unfold generate at h
  obtain ⟨y, hgen, hfst⟩ := pm_map_ok _ _ _ h
  obtain ⟨ts, idp'⟩ := y
  have hts : ts = g := hfst
  subst hts
  obtain ⟨-, -, ctx', hbelow, hlab⟩ :=
    (gen_labels fuel).1 ast (END_STATE + 1) START_STATE END_STATE ts idp' hgen
      [] (fun _ => []) (by decide) (by decide) rfl rfl hids
  refine ⟨ctx', hlab, ?_, ?_⟩
  · rw [hbelow START_STATE (by decide)]
  · rw [hbelow END_STATE (by decide)]

end PG

namespace PG

/-- **C8.**  Capture-stack discipline: for every pattern the parser accepts
and the compiler lowers to a graph, (1) the evaluator never hits a
`Capturer` assertion failure — `start_capture` is never invoked with a
group id already on the `currents` stack and `end_capture(id)` always pops
exactly `id` — on any subject and with any amount of fuel, and (2) in every
configuration the inner search reaches from its initial stack, every frame
standing at `END_STATE` carries an empty `currents` stack, and popping any
non-`END_STATE` frame processes all its available transitions without an
assertion failure. -/
theorem c8_capture_stack_discipline (fuel : Nat) (pat : String) (ast : AstNode)
    (g : List Transition)
    (hp : (parse_regex_str fuel pat).run = some (Except.ok ast))
    (hg : (generate fuel ast).run = some (Except.ok g)) :
    (∀ (chars : List Token) (n : Nat), is_match n g chars ≠ some .panicked) ∧
    (∀ (chars : List Token) (offset : Nat) (σ : List (Nat × Nat) × Nat × List Frame),
       InnerReach g ([], 1, [⟨chars.drop offset, 0, START_STATE, Capturer.new⟩]) σ →
       (∀ fr ∈ σ.2.2, fr.state = END_STATE → fr.cap.currents = []) ∧
       (∀ (fr : Frame) (rest : List Frame), σ.2.2 = fr :: rest → fr.state ≠ END_STATE →
         procTrans g fr.loop_id fr.state fr.rest fr.cap
           ((get_available_transitions g fr.state).reverse) σ.1 σ.2.1 rest ≠
           Option.none)) := by
  obtain ⟨ctx, hlab, hS, hE⟩ :=
    generated_graph_labeled fuel ast g (parse_ids_ok fuel pat ast hp) hg
  constructor
  · intro chars n
    exact outerLoop_no_panic g ctx hlab hS chars n 0 []
  · intro chars offset σ hreach
    have hinit : ∀ fr ∈ [(⟨chars.drop offset, 0, START_STATE, Capturer.new⟩ : Frame)],
        fr.cap.currents = ctx fr.state := by
      intro fr hfr
      rw [List.mem_singleton] at hfr
      subst hfr
      exact hS.symm
    have hinv := innerReach_inv g ctx hlab _ σ hinit hreach
    constructor
    · intro fr hfr hend
      rw [hinv fr hfr, hend]
      exact hE
    · intro fr rest hσ hne
      have hfr : fr ∈ σ.2.2 := by
        rw [hσ]
        exact List.Mem.head _
      have hrest : ∀ f ∈ rest, f.cap.currents = ctx f.state := by
        intro f hf
        refine hinv f ?_
        rw [hσ]
        exact List.mem_cons_of_mem _ hf
      obtain ⟨out, hout, -⟩ := procTrans_ctx g ctx hlab fr.loop_id fr.state fr.rest fr.cap
        (hinv fr hfr) _ (avail_mem g fr.state) σ.1 σ.2.1 rest hrest
      rw [hout]
      exact fun hc => Option.noConfusion hc

/-- Witness for C8 at the concrete pattern `(a)` on subject `a`:
the parse and compile hypotheses hold by computation and the evaluator
run never panics. -/
theorem c8_capture_stack_discipline_witness :
    is_match 20
      [⟨0, 2, Cond.none, Option.none, CaptureGroupInstruction.start 1⟩,
       ⟨2, 3, Cond.char (Literal.char 'a'), Option.none, CaptureGroupInstruction.none⟩,
       ⟨3, 1, Cond.none, Option.none, CaptureGroupInstruction.stop 1⟩]
      (str_to_tokens "a") ≠ some EvalMatchResult.panicked :=
  (c8_capture_stack_discipline 100 "(a)"
      (AstNode.root (AstNode.seq [AstNode.alt [AstNode.seq [AstNode.char (Literal.char 'a')]] 1]))
      [⟨0, 2, Cond.none, Option.none, CaptureGroupInstruction.start 1⟩,
       ⟨2, 3, Cond.char (Literal.char 'a'), Option.none, CaptureGroupInstruction.none⟩,
       ⟨3, 1, Cond.none, Option.none, CaptureGroupInstruction.stop 1⟩]
      rfl rfl).1 (str_to_tokens "a") 20

end PG
